import Mathlib

/-!
Verification of the chess-AI search engine of this repository.

The repository's search code lives in `ai_prophet.py`, `ai_gambler.py`,
`ai_tactician.py`, `ai_fortress.py` and `ai_personality_base.py`.  The
external collaborator (`engine.py`, providing `GameState` and `Move` with
`makeMove`/`undoMove`/`getValidMoves`) is not part of the verified core; its
data model is modelled from the spec where needed.

Conventions of the shallow embedding:
* Python floats are embedded as `Rat` (all constants in the source are
  decimal literals, e.g. `0.3 = 3/10`).
* Python dicts keyed by position keys are embedded as total functions
  `K → Option V` (for tables) or `K → Nat` (for counters, with `get(k, 0)`
  semantics); the insertion-ordered dict of `TranspositionTable` is embedded
  as an association list in insertion order.
* In-place mutation of `gs` via `makeMove`/`undoMove` around a recursive
  call is embedded as an immutable child position `apply pos m` (the spec
  requires make/undo to be exactly reversible).
* `random.shuffle` / `random.choices` outcomes are inputs of the embedding
  (a permutation parameter, resp. returned candidate/weight lists).
-/

-- ============================================================================
-- DEFINITIONS
-- ============================================================================

/-- Piece kinds, the second character of a square string such as `"wp"`. -/
inductive PieceT
  | K | Q | R | B | N | p
  deriving DecidableEq, Fintype

/-- Piece colors, the first character of a square string. -/
inductive ColorT
  | w | b
  deriving DecidableEq, Fintype

/-- One board square: `none` is the empty square `"--"`, `some (c, k)` the
two-character string of a piece. -/
abbrev Sq : Type := Option (ColorT × PieceT)

/-- `CHECKMATE = 1000` from `ai_personality_base.py`. -/
def CHECKMATE : Rat := 1000

/-- `STALEMATE = 0` from `ai_personality_base.py`. -/
def STALEMATE : Rat := 0

/-- `BASE_PIECE_SCORE` from `ai_personality_base.py`; also the `pieceScore`
of the prophet and tactician personalities (they copy it unchanged). -/
def pieceScore : PieceT → Rat
  | .K => 0
  | .Q => 9
  | .R => 5
  | .B => 3
  | .N => 3
  | .p => 1

/-- `pieceScore` of `ai_fortress.py` (pawns re-valued to `1.4`). -/
def pieceScoreFortress : PieceT → Rat
  | .K => 0
  | .Q => 9
  | .R => 5
  | .B => 3
  | .N => 3
  | .p => 7/5

/-- Modelled from the spec: the external engine's `Move` is an immutable
value with start/end square, piece moved, piece captured (or none),
promotion flag and en-passant flag, compared field by field (spec §3).
`pieceCaptured = none` is the source's `"--"`. -/
structure MoveP where
  startRow : Nat
  startCol : Nat
  endRow : Nat
  endCol : Nat
  pieceMoved : ColorT × PieceT
  pieceCaptured : Sq
  isPawnPromotion : Bool
  isEnpassantMove : Bool
  deriving DecidableEq

/-- Modelled from the spec: the external engine's `Move.isCapture`, true
exactly when a piece is captured (`pieceCaptured != "--"`). -/
def MoveP.isCapture (m : MoveP) : Bool :=
  m.pieceCaptured.isSome

/-- Modelled from the spec: the fields of the external engine's `GameState`
that the search core reads (spec §3): 8×8 grid of occupant codes, side to
move, four castling-right flags, optional en-passant target, and the
check/checkmate/stalemate flags. -/
structure GS where
  board : List (List Sq)
  whiteToMove : Bool
  checkmate : Bool
  stalemate : Bool
  whiteCastleKingside : Bool
  whiteCastleQueenside : Bool
  blackCastleKingside : Bool
  blackCastleQueenside : Bool
  enpasantPossible : Option (Nat × Nat)
  inCheck : Bool
  deriving DecidableEq

/-- `gs.board[row][col]` with Python's 0-based indexing. -/
def boardSq (gs : GS) (row col : Nat) : Sq :=
  (gs.board.getD row []).getD col none

/-- The two-character string of one square, as Python's `str` renders the
board entries: `"--"` for the empty square, color character followed by the
piece character otherwise. -/
def reprSquare : Sq → String
  | none => "--"
  | some (c, k) =>
    (match c with | .w => "w" | .b => "b") ++
    (match k with | .K => "K" | .Q => "Q" | .R => "R" | .B => "B" | .N => "N" | .p => "p")

/-- The board part of `str(gs.board)`: every square rendered to its
two-character string (the surrounding Python list syntax is an injective
serialisation of this nested list and is elided). -/
def reprBoard (b : List (List Sq)) : List (List String) :=
  b.map (fun row => row.map reprSquare)

/-- `_board_key` of `ai_prophet.py` (identically repeated in
`ai_gambler.py` and `ai_tactician.py`): the tuple
`(str(gs.board), gs.whiteToMove, gs.whiteCastleKingside,
gs.whiteCastleQueenside, gs.blackCastleKingside, gs.blackCastleQueenside,
gs.enpasantPossible)`. -/
def board_key (gs : GS) :
    List (List String) × Bool × Bool × Bool × Bool × Bool × Option (Nat × Nat) :=
  ( reprBoard gs.board
  , gs.whiteToMove
  , gs.whiteCastleKingside
  , gs.whiteCastleQueenside
  , gs.blackCastleKingside
  , gs.blackCastleQueenside
  , gs.enpasantPossible )

-- ----------------------------------------------------------------------------
-- Transposition-table stores (ai_personality_base.py / ai_prophet.py)
-- ----------------------------------------------------------------------------

/-- A Python dict in insertion order, restricted to the two operations the
transposition tables use.  `dictInsert` is `d[k] = v`: an existing key is
overwritten in place (its position in the order is kept), a new key is
appended at the end. -/
def dictInsert {K V : Type} [DecidableEq K] (t : List (K × V)) (k : K) (v : V) :
    List (K × V) :=
  if t.any (fun p => p.1 = k) then
    t.map (fun p => if p.1 = k then (k, v) else p)
  else
    t ++ [(k, v)]

/-- `d.get(k)`-style lookup: the value of the first entry with key `k`. -/
def dictGet {K V : Type} [DecidableEq K] (t : List (K × V)) (k : K) : Option V :=
  (t.find? (fun p => p.1 = k)).map (fun p => p.2)

/-- The `TranspositionTable` class of `ai_personality_base.py`: a dict keyed
by `(position_hash, depth)` plus a configured `max_size` (default 100000). -/
structure TranspositionTable (K V : Type) where
  table : List ((K × Nat) × V)
  max_size : Nat

/-- `TranspositionTable.store`: when the table already holds at least
`max_size` entries, delete the first `max_size // 2` keys in insertion
order, then write `table[(position_hash, depth)] = score`. -/
def TranspositionTable.store {K V : Type} [DecidableEq K]
    (tt : TranspositionTable K V) (position_hash : K) (depth : Nat) (score : V) :
    TranspositionTable K V :=
  let t := if tt.max_size ≤ tt.table.length then tt.table.drop (tt.max_size / 2)
           else tt.table
  { tt with table := dictInsert t (position_hash, depth) score }

/-- The store of `ai_prophet.py`'s persistent module-level table
(`transTable[key] = (depth, maxScore, flag)`, line 324): a plain dict write
with no size bound of any kind.  The table is intentionally never cleared
between moves. -/
def prophetTableStore {K V : Type} [DecidableEq K]
    (t : List (K × V)) (k : K) (v : V) : List (K × V) :=
  dictInsert t k v

/-- A sequence of stores into the prophet's table, one per key. -/
def prophetTableStoreAll {K V : Type} [DecidableEq K]
    (t : List (K × V)) (ks : List K) (v : V) : List (K × V) :=
  ks.foldl (fun acc k => prophetTableStore acc k v) t

-- ----------------------------------------------------------------------------
-- Piece-square tables (ai_personality_base.py)
-- ----------------------------------------------------------------------------

def knightScores : List (List Rat) :=
  [[1, 1, 1, 1, 1, 1, 1, 1],
   [1, 2, 2, 2, 2, 2, 2, 1],
   [1, 2, 3, 3, 3, 3, 2, 1],
   [1, 2, 3, 4, 4, 3, 2, 1],
   [1, 2, 3, 4, 4, 3, 2, 1],
   [1, 2, 3, 3, 3, 3, 2, 1],
   [1, 2, 2, 2, 2, 2, 2, 1],
   [1, 1, 1, 1, 1, 1, 1, 1]]

def bishopScores : List (List Rat) :=
  [[4, 3, 2, 1, 1, 2, 3, 4],
   [3, 4, 3, 2, 2, 3, 4, 3],
   [2, 3, 4, 3, 3, 4, 3, 2],
   [1, 2, 3, 4, 4, 3, 2, 1],
   [1, 2, 3, 4, 4, 3, 2, 1],
   [2, 3, 4, 3, 3, 4, 3, 2],
   [3, 4, 3, 2, 2, 3, 4, 3],
   [4, 3, 2, 1, 1, 2, 3, 4]]

def queenScores : List (List Rat) :=
  [[1, 1, 1, 3, 1, 1, 1, 1],
   [1, 2, 3, 3, 3, 1, 1, 1],
   [1, 4, 3, 3, 3, 4, 2, 1],
   [1, 2, 3, 3, 3, 2, 2, 1],
   [1, 2, 3, 3, 3, 2, 2, 1],
   [1, 4, 3, 3, 3, 4, 2, 1],
   [1, 1, 2, 3, 3, 1, 1, 1],
   [1, 1, 1, 3, 1, 1, 1, 1]]

def rookScores : List (List Rat) :=
  [[4, 3, 4, 4, 4, 4, 3, 4],
   [4, 4, 4, 4, 4, 4, 4, 4],
   [1, 1, 2, 3, 3, 2, 1, 1],
   [1, 2, 3, 4, 4, 3, 2, 1],
   [1, 2, 3, 4, 4, 3, 2, 1],
   [1, 1, 2, 2, 2, 2, 1, 1],
   [4, 4, 4, 4, 4, 4, 4, 4],
   [4, 3, 2, 1, 1, 2, 3, 4]]

def whitePawnScores : List (List Rat) :=
  [[8, 8, 8, 8, 8, 8, 8, 8],
   [8, 8, 8, 8, 8, 8, 8, 8],
   [5, 6, 6, 7, 7, 6, 6, 5],
   [2, 3, 3, 5, 5, 3, 3, 2],
   [1, 2, 3, 4, 4, 3, 2, 1],
   [1, 1, 2, 3, 3, 2, 1, 1],
   [1, 1, 1, 0, 0, 1, 1, 1],
   [0, 0, 0, 0, 0, 0, 0, 0]]

def blackPawnScores : List (List Rat) :=
  [[0, 0, 0, 0, 0, 0, 0, 0],
   [1, 1, 1, 0, 0, 1, 1, 1],
   [1, 1, 2, 3, 3, 2, 1, 1],
   [1, 2, 3, 4, 4, 3, 2, 1],
   [2, 3, 3, 5, 5, 3, 3, 2],
   [5, 6, 6, 7, 7, 6, 6, 5],
   [8, 8, 8, 8, 8, 8, 8, 8],
   [8, 8, 8, 8, 8, 8, 8, 8]]

/-- `table[row][col]` on a nested list. -/
def tableAt (t : List (List Rat)) (row col : Nat) : Rat :=
  (t.getD row []).getD col 0

/-- `piecePositionScores[sq if piece == "p" else piece][row][col]`
(`BASE_PIECE_POSITION_SCORES`: pawns are looked up under their
two-character square string, every other piece under its letter; kings are
never looked up — the callers guard with `piece != "K"`, so the `K` case is
unreachable and returns `0`). -/
def piecePositionScoresAt (c : ColorT) (k : PieceT) (row col : Nat) : Rat :=
  match k with
  | .N => tableAt knightScores row col
  | .B => tableAt bishopScores row col
  | .Q => tableAt queenScores row col
  | .R => tableAt rookScores row col
  | .p => if c = ColorT.w then tableAt whitePawnScores row col else tableAt blackPawnScores row col
  | .K => 0

/-- `range(max(0, kc - 1), min(8, kc + 2))`, the three columns around a
king or pawn column, clipped to the board (natural subtraction coincides
with Python's `max(0, kc - 1)` here). -/
def colRange (kc : Nat) : List Nat :=
  List.range' (kc - 1) (min 8 (kc + 2) - (kc - 1))

-- ----------------------------------------------------------------------------
-- scoreBoard of ai_prophet.py
-- ----------------------------------------------------------------------------

namespace Prophet

/-- The accumulator of the single board scan of `scoreBoard`
(`ai_prophet.py` lines 64–93): running score, bishop counts, king
locations (defaulted to e1/e8) and pawn columns in scan order. -/
structure ScanAcc where
  score : Rat
  white_bishops : Nat
  black_bishops : Nat
  white_king_row : Nat
  white_king_col : Nat
  black_king_row : Nat
  black_king_col : Nat
  white_pawn_cols : List Nat
  black_pawn_cols : List Nat

/-- One iteration of the scan loop body. -/
def scanSquare (gs : GS) (acc : ScanAcc) (row col : Nat) : ScanAcc :=
  match boardSq gs row col with
  | none => acc
  | some (color, piece) =>
    let mat := pieceScore piece
    let pos : Rat := if piece ≠ PieceT.K then piecePositionScoresAt color piece row col else 0
    let total := mat + pos * (3/10)
    match color with
    | .w =>
      { acc with
        score := acc.score + total
        white_bishops := if piece = PieceT.B then acc.white_bishops + 1 else acc.white_bishops
        white_king_row := if piece = PieceT.K then row else acc.white_king_row
        white_king_col := if piece = PieceT.K then col else acc.white_king_col
        white_pawn_cols := if piece = PieceT.p then acc.white_pawn_cols ++ [col] else acc.white_pawn_cols }
    | .b =>
      { acc with
        score := acc.score - total
        black_bishops := if piece = PieceT.B then acc.black_bishops + 1 else acc.black_bishops
        black_king_row := if piece = PieceT.K then row else acc.black_king_row
        black_king_col := if piece = PieceT.K then col else acc.black_king_col
        black_pawn_cols := if piece = PieceT.p then acc.black_pawn_cols ++ [col] else acc.black_pawn_cols }

/-- `for row in range(8): for col in range(8): ...` of `scoreBoard`. -/
def scan (gs : GS) : ScanAcc :=
  (List.range 8).foldl (fun acc row =>
    (List.range 8).foldl (fun acc col => scanSquare gs acc row col) acc)
    ⟨0, 0, 0, 7, 4, 0, 4, [], []⟩

/-- The inner `king_safety` of `ai_prophet.py` (lines 95–106). -/
def king_safety (gs : GS) (king_row king_col : Nat) (color : ColorT) : Rat :=
  let safety : Rat :=
    if king_col ≤ 2 then 6/10
    else if 5 ≤ king_col then 7/10
    else -(8/10)
  let shield_row : Int :=
    if color = ColorT.w then (king_row : Int) - 1 else (king_row : Int) + 1
  if 0 ≤ shield_row ∧ shield_row < 8 then
    (colRange king_col).foldl (fun s c =>
      let pawn_sq := boardSq gs shield_row.toNat c
      if pawn_sq = some (color, PieceT.p) then s + 4/10
      else if pawn_sq = none then s - 1/4
      else s) safety
  else safety

/-- The passed-pawn double loop of `ai_prophet.py` (lines 114–126),
returning the total passed-pawn contribution. -/
def passedPawns (gs : GS) : Rat :=
  (List.range 8).foldl (fun s col =>
    (List.range 8).foldl (fun s row =>
      let sq := boardSq gs row col
      if sq = some (ColorT.w, PieceT.p) then
        if (colRange col).all (fun c =>
            (List.range row).all (fun r =>
              decide (boardSq gs r c ≠ some (ColorT.b, PieceT.p)))) then
          s + ((7 - row : Nat) : Rat) * (3/20)
        else s
      else if sq = some (ColorT.b, PieceT.p) then
        if (colRange col).all (fun c =>
            (List.range' (row + 1) (8 - (row + 1))).all (fun r =>
              decide (boardSq gs r c ≠ some (ColorT.w, PieceT.p)))) then
          s - (row : Rat) * (3/20)
        else s
      else s) s) 0

/-- The rook-on-open-file double loop of `ai_prophet.py` (lines 128–138),
with the pawn-column sets gathered by the scan. -/
def rookFiles (gs : GS) (w_cols b_cols : List Nat) : Rat :=
  (List.range 8).foldl (fun s col =>
    (List.range 8).foldl (fun s row =>
      let sq := boardSq gs row col
      if sq = some (ColorT.w, PieceT.R) then
        if col ∉ w_cols ∧ col ∉ b_cols then s + 3/10
        else if col ∉ w_cols then s + 3/20
        else s
      else if sq = some (ColorT.b, PieceT.R) then
        if col ∉ b_cols ∧ col ∉ w_cols then s - 3/10
        else if col ∉ b_cols then s - 3/20
        else s
      else s) s) 0

/-- `scoreBoard` of `ai_prophet.py` (lines 58–140). -/
def scoreBoard (gs : GS) : Rat :=
  if gs.checkmate then (if gs.whiteToMove then -CHECKMATE else CHECKMATE)
  else if gs.stalemate then STALEMATE
  else
    let a := scan gs
    let score := a.score
    let score := score + king_safety gs a.white_king_row a.white_king_col ColorT.w
                       - king_safety gs a.black_king_row a.black_king_col ColorT.b
    let score := if 2 ≤ a.white_bishops then score + 1/2 else score
    let score := if 2 ≤ a.black_bishops then score - 1/2 else score
    let score := score + passedPawns gs
    let score := score + rookFiles gs a.white_pawn_cols a.black_pawn_cols
    score

/-- The call `scoreBoard(gs)` with the state of `gs` threaded explicitly.
The source body contains no assignment to any attribute of `gs` (it only
reads the board and the flags), so the position passes through unchanged —
this is the evaluator's read-only frame. -/
def scoreBoardRun (gs : GS) : Rat × GS :=
  (scoreBoard gs, gs)

end Prophet

-- ----------------------------------------------------------------------------
-- scoreBoard of ai_fortress.py
-- ----------------------------------------------------------------------------

namespace Fortress

/-- The accumulator of the board scan of `scoreBoard` (`ai_fortress.py`
lines 61–86): running score, king locations and pawn columns. -/
structure ScanAcc where
  score : Rat
  white_king_row : Nat
  white_king_col : Nat
  black_king_row : Nat
  black_king_col : Nat
  white_pawn_cols : List Nat
  black_pawn_cols : List Nat

/-- One iteration of the scan loop body (`total = mat + pos * 0.1`, pawns
valued `1.4`). -/
def scanSquare (gs : GS) (acc : ScanAcc) (row col : Nat) : ScanAcc :=
  match boardSq gs row col with
  | none => acc
  | some (color, piece) =>
    let mat := pieceScoreFortress piece
    let pos : Rat := if piece ≠ PieceT.K then piecePositionScoresAt color piece row col else 0
    let total := mat + pos * (1/10)
    match color with
    | .w =>
      { acc with
        score := acc.score + total
        white_king_row := if piece = PieceT.K then row else acc.white_king_row
        white_king_col := if piece = PieceT.K then col else acc.white_king_col
        white_pawn_cols := if piece = PieceT.p then acc.white_pawn_cols ++ [col] else acc.white_pawn_cols }
    | .b =>
      { acc with
        score := acc.score - total
        black_king_row := if piece = PieceT.K then row else acc.black_king_row
        black_king_col := if piece = PieceT.K then col else acc.black_king_col
        black_pawn_cols := if piece = PieceT.p then acc.black_pawn_cols ++ [col] else acc.black_pawn_cols }

def scan (gs : GS) : ScanAcc :=
  (List.range 8).foldl (fun acc row =>
    (List.range 8).foldl (fun acc col => scanSquare gs acc row col) acc)
    ⟨0, 7, 4, 0, 4, [], []⟩

/-- The inner `king_safety` of `ai_fortress.py` (lines 88–104): like the
prophet's but with a second pawn-shield row two squares ahead. -/
def king_safety (gs : GS) (king_row king_col : Nat) (color : ColorT) : Rat :=
  let safety : Rat :=
    if king_col ≤ 2 then 6/10
    else if 5 ≤ king_col then 7/10
    else -(8/10)
  let shield_row : Int :=
    if color = ColorT.w then (king_row : Int) - 1 else (king_row : Int) + 1
  let safety :=
    if 0 ≤ shield_row ∧ shield_row < 8 then
      (colRange king_col).foldl (fun s c =>
        let pawn_sq := boardSq gs shield_row.toNat c
        if pawn_sq = some (color, PieceT.p) then s + 4/10
        else if pawn_sq = none then s - 1/4
        else s) safety
    else safety
  let shield_row2 : Int :=
    if color = ColorT.w then (king_row : Int) - 2 else (king_row : Int) + 2
  if 0 ≤ shield_row2 ∧ shield_row2 < 8 then
    (colRange king_col).foldl (fun s c =>
      if boardSq gs shield_row2.toNat c = some (color, PieceT.p) then s + 3/20
      else s) safety
  else safety

/-- The inner `pawn_structure` of `ai_fortress.py` (lines 109–119):
`+0.1` per pawn with a neighbouring-file pawn, `-0.2` otherwise (the
neighbour test is over the set of own pawn columns, with Python integer
arithmetic on `c - 1`). -/
def pawn_structure (pawn_cols : List Nat) : Rat :=
  if pawn_cols = [] then 0
  else
    pawn_cols.foldl (fun s c =>
      if pawn_cols.any (fun n => (n : Int) = (c : Int) - 1) ∨
         pawn_cols.any (fun n => (n : Int) = (c : Int) + 1) then s + 1/10
      else s - 1/5) 0

/-- `scoreBoard` of `ai_fortress.py` (lines 55–124). -/
def scoreBoard (gs : GS) : Rat :=
  if gs.checkmate then (if gs.whiteToMove then -CHECKMATE else CHECKMATE)
  else if gs.stalemate then STALEMATE
  else
    let a := scan gs
    let score := a.score
    let score := score + king_safety gs a.white_king_row a.white_king_col ColorT.w
                       - king_safety gs a.black_king_row a.black_king_col ColorT.b
    let score := score + pawn_structure a.white_pawn_cols
                       - pawn_structure a.black_pawn_cols
    score

/-- The call `scoreBoard(gs)` with the state of `gs` threaded explicitly;
as in the prophet, the source never assigns to `gs`. -/
def scoreBoardRun (gs : GS) : Rat × GS :=
  (scoreBoard gs, gs)

end Fortress

-- ----------------------------------------------------------------------------
-- The abstract game consumed by the search (external collaborator)
-- ----------------------------------------------------------------------------

/-- Modelled from the spec: the interface the search core consumes from its
external collaborator (spec §6) — a canonical position key, the legal moves
of a position (`getValidMoves`), the position after a move
(`makeMove`/`undoMove` around a recursive call, which the spec requires to
be exactly reversible), the static evaluation (`scoreBoard`) and the side
to move.  `P`, `M`, `K` are the position, move and key types. -/
structure Game (P M K : Type) where
  key : P → K
  moves : P → List M
  apply : P → M → P
  eval : P → Rat
  whiteToMove : P → Bool

/-- The search-path history dict of a path whose node keys are `seen`,
each key visited once (`search_history.get(k, 0)`). -/
def histOf {K : Type} [DecidableEq K] (seen : List K) : K → Nat :=
  fun k => if k ∈ seen then 1 else 0

/-- No position key repeats along any search path of length ≤ `d` from
`pos`, given the keys `seen` already on the path.  Under this condition the
repetition counters never reach 2 during a search of depth `d` (with an
empty game history). -/
def noRep {P M K : Type} [DecidableEq K] (G : Game P M K) :
    Nat → P → List K → Bool
  | 0, pos, seen => !decide (G.key pos ∈ seen)
  | d + 1, pos, seen =>
    !decide (G.key pos ∈ seen) &&
    (G.moves pos).all (fun m => noRep G d (G.apply pos m) (G.key pos :: seen))

-- ----------------------------------------------------------------------------
-- findMoveNegaMaxAlphaBeta of ai_tactician.py
-- ----------------------------------------------------------------------------

namespace Tactician

/-- `DEPTH = 3` of `ai_tactician.py`. -/
def DEPTH : Nat := 3

/-- The move loop of `findMoveNegaMaxAlphaBeta` (`ai_tactician.py` lines
165–180): fold the negated child scores into `maxScore`, record the move
into the global `nextMove` when searching at the top depth `DC` and the
score strictly improves, raise `alpha`, and break on `alpha ≥ beta`.
`rec` is the recursive search at depth `dcur - 1`; the search-path dict and
the `nextMove` global are threaded through. -/
def tLoopF {P M K : Type} (G : Game P M K)
    (rec : P → List M → Rat → Rat → Rat → (K → Nat) → Option M →
      Rat × (K → Nat) × Option M)
    (DC dcur : Nat) (pos : P) :
    List M → Rat → Rat → Rat → Rat → (K → Nat) → Option M →
      Rat × (K → Nat) × Option M
  | [], maxScore, _, _, _, hist, nmv => (maxScore, hist, nmv)
  | m :: ms, maxScore, alpha, beta, turn, hist, nmv =>
    let child := G.apply pos m
    let r := rec child (G.moves child) (-beta) (-alpha) (-turn) hist nmv
    let score := -r.1
    let maxScore1 := if maxScore < score then score else maxScore
    let nmv1 := if maxScore < score ∧ dcur = DC then some m else r.2.2
    let alpha1 := if alpha < maxScore1 then maxScore1 else alpha
    if beta ≤ alpha1 then (maxScore1, r.2.1, nmv1)
    else tLoopF G rec DC dcur pos ms maxScore1 alpha1 beta turn r.2.1 nmv1

/-- The body of `findMoveNegaMaxAlphaBeta` after the repetition check
(`ai_tactician.py` lines 157–185): leaf evaluation at depth 0, otherwise
mark the position in the search-path dict, run the move loop, and unmark
it before returning. -/
def tAfterRep {P M K : Type} [DecidableEq K] (G : Game P M K)
    (rec : P → List M → Rat → Rat → Rat → (K → Nat) → Option M →
      Rat × (K → Nat) × Option M)
    (DC dcur : Nat) (pos : P) (vm : List M) (alpha beta turn : Rat)
    (hist : K → Nat) (nmv : Option M) : Rat × (K → Nat) × Option M :=
  if dcur = 0 then (turn * G.eval pos, hist, nmv)
  else
    let key := G.key pos
    let hist1 : K → Nat := fun k => if k = key then hist k + 1 else hist k
    let r := tLoopF G rec DC dcur pos vm (-CHECKMATE) alpha beta turn hist1 nmv
    let hist2 : K → Nat := fun k => if k = key then r.2.1 k - 1 else r.2.1 k
    (r.1, hist2, r.2.2)

/-- Recursion stub for depth 0; `tAfterRep` at depth 0 returns the leaf
evaluation before ever invoking its recursive argument, so this function is
never applied. -/
def tDummy {P M K : Type} :
    P → List M → Rat → Rat → Rat → (K → Nat) → Option M →
      Rat × (K → Nat) × Option M :=
  fun _ _ _ _ _ hist nmv => (0, hist, nmv)

/-- `findMoveNegaMaxAlphaBeta` of `ai_tactician.py` (lines 134–185):
repetition check first (`gameHistory` count plus search-path count ≥ 2
returns the draw score 0 at once), then leaf evaluation / move loop.
The module globals are explicit: `gameHistory` is read-only during the
search, the search-path dict and `nextMove` are threaded; `DC` is the
module constant `DEPTH` used by the `depth == DEPTH` check. -/
def findMoveNegaMaxAlphaBeta {P M K : Type} [DecidableEq K] (G : Game P M K)
    (gameHistory : K → Nat) (DC : Nat) :
    Nat → P → List M → Rat → Rat → Rat → (K → Nat) → Option M →
      Rat × (K → Nat) × Option M
  | 0, pos, vm, alpha, beta, turn, hist, nmv =>
    if 2 ≤ gameHistory (G.key pos) + hist (G.key pos) then (0, hist, nmv)
    else tAfterRep G tDummy DC 0 pos vm alpha beta turn hist nmv
  | d + 1, pos, vm, alpha, beta, turn, hist, nmv =>
    if 2 ≤ gameHistory (G.key pos) + hist (G.key pos) then (0, hist, nmv)
    else tAfterRep G (findMoveNegaMaxAlphaBeta G gameHistory DC d) DC (d + 1)
      pos vm alpha beta turn hist nmv

/-- The recursive search one level down, as passed by
`findMoveNegaMaxAlphaBeta` at a given depth to its loop. -/
def tPrev {P M K : Type} [DecidableEq K] (G : Game P M K)
    (gameHistory : K → Nat) (DC : Nat) : Nat →
    P → List M → Rat → Rat → Rat → (K → Nat) → Option M →
      Rat × (K → Nat) × Option M
  | 0 => tDummy
  | d + 1 => findMoveNegaMaxAlphaBeta G gameHistory DC d

end Tactician

-- ----------------------------------------------------------------------------
-- Reference searches for the alpha-beta equivalence claim
-- ----------------------------------------------------------------------------

/-- The tactician's move loop with the repetition machinery erased: plain
fail-soft alpha-beta (helper for relating the search to minimax). -/
def abLoopF {P M K : Type} (G : Game P M K)
    (recA : P → List M → Rat → Rat → Rat → Rat) (pos : P) :
    List M → Rat → Rat → Rat → Rat → Rat
  | [], maxScore, _, _, _ => maxScore
  | m :: ms, maxScore, alpha, beta, turn =>
    let child := G.apply pos m
    let score := -(recA child (G.moves child) (-beta) (-alpha) (-turn))
    let maxScore1 := if maxScore < score then score else maxScore
    let alpha1 := if alpha < maxScore1 then maxScore1 else alpha
    if beta ≤ alpha1 then maxScore1
    else abLoopF G recA pos ms maxScore1 alpha1 beta turn

/-- The tactician's search with the repetition machinery erased: plain
fail-soft alpha-beta with the same `-CHECKMATE` fold base. -/
def alphabeta {P M K : Type} (G : Game P M K) :
    Nat → P → List M → Rat → Rat → Rat → Rat
  | 0, pos, _, _, _, turn => turn * G.eval pos
  | d + 1, pos, vm, alpha, beta, turn =>
    abLoopF G (alphabeta G d) pos vm (-CHECKMATE) alpha beta turn

/-- Modelled from the spec: the full-window (`α = -∞`, `β = +∞`) minimax
search with no pruning of spec §8 ("Alpha-beta equivalence"), in negamax
form with the same `-CHECKMATE` fold base as the engine's loop. -/
def minimaxFull {P M K : Type} (G : Game P M K) : Nat → P → Rat → Rat
  | 0, pos, turn => turn * G.eval pos
  | d + 1, pos, turn =>
    (G.moves pos).foldl
      (fun acc m => max acc (-(minimaxFull G d (G.apply pos m) (-turn))))
      (-CHECKMATE)

/-- A two-position game in which each side's only move returns to the
previous position (a shuttling cycle, as both kings shuffling would
produce): position `false` evaluates to `5`, position `true` to `3`. -/
def cycleGame : Game Bool Unit Bool where
  key := id
  moves := fun _ => [()]
  apply := fun p _ => !p
  eval := fun p => if p then 3 else 5
  whiteToMove := fun _ => true

/-- An acyclic game: positions are naturals, the only move steps forward,
every evaluation is `1`. -/
def chainGame : Game Nat Unit Nat where
  key := id
  moves := fun _ => [()]
  apply := fun p _ => p + 1
  eval := fun _ => 1
  whiteToMove := fun _ => true

-- ----------------------------------------------------------------------------
-- Stable sorting (Python's list.sort / sorted are stable)
-- ----------------------------------------------------------------------------

/-- Insert `x` into `l` just before the first element that `x` strictly
precedes (`gt x y = true`); on ties or when `x` does not precede, `x` stays
behind — the insertion step of a stable insertion sort. -/
def insertOrd {α : Type} (gt : α → α → Bool) (x : α) : List α → List α
  | [] => [x]
  | y :: ys => if gt x y then x :: y :: ys else y :: insertOrd gt x ys

/-- Stable sort by the strict precedence `gt`; elements that do not
strictly precede each other keep their original relative order.  A stable
sort's output is uniquely determined by `gt` and the input, so this models
Python's stable `list.sort(key=..., reverse=True)` (with
`gt a b = key b < key a` for a descending sort). -/
def stableSort {α : Type} (gt : α → α → Bool) (l : List α) : List α :=
  l.foldl (fun acc x => insertOrd gt x acc) []

-- ----------------------------------------------------------------------------
-- Move ordering, quiescence and negamax of ai_prophet.py
-- ----------------------------------------------------------------------------

namespace Prophet

/-- `CENTER` of `ai_prophet.py`. -/
def CENTER : List (Nat × Nat) := [(3, 3), (3, 4), (4, 3), (4, 4)]

/-- `mvv_lva` of `ai_prophet.py`: victim value × 10 minus attacker value
(`pieceScore.get(move.pieceCaptured[1], 0)` yields 0 for the `"--"`
non-capture; the attacker's `get` default 1 is dead code since
`pieceMoved` is always a real piece). -/
def mvv_lva (move : MoveP) : Rat :=
  let victim : Rat := match move.pieceCaptured with
    | none => 0
    | some (_, pc) => pieceScore pc
  let attacker := pieceScore move.pieceMoved.2
  victim * 10 - attacker

/-- The eight ordering buckets of `order_moves` (`ai_prophet.py` lines
154–188), filled in traversal order. -/
structure Buckets where
  best_bucket : List MoveP
  win_cap : List (Rat × MoveP)
  eq_cap : List MoveP
  lose_cap : List MoveP
  killer_bucket : List MoveP
  history_bucket : List MoveP
  center_bucket : List MoveP
  other : List MoveP

/-- The body of the bucket loop of `order_moves` for one move. -/
def bucketsStep (k1 k2 : Option MoveP)
    (historyTable : (ColorT × PieceT) × Nat × Nat → Nat)
    (best_move : Option MoveP) (b : Buckets) (move : MoveP) : Buckets :=
  if best_move = some move then
    { b with best_bucket := b.best_bucket ++ [move] }
  else if move.pieceCaptured.isSome then
    let gain := mvv_lva move
    if 0 < gain then { b with win_cap := b.win_cap ++ [(gain, move)] }
    else if gain = 0 then { b with eq_cap := b.eq_cap ++ [move] }
    else { b with lose_cap := b.lose_cap ++ [move] }
  else
    if some move = k1 ∨ some move = k2 then
      { b with killer_bucket := b.killer_bucket ++ [move] }
    else if historyTable (move.pieceMoved, move.endRow, move.endCol) ≠ 0 then
      { b with history_bucket := b.history_bucket ++ [move] }
    else if (move.endRow, move.endCol) ∈ CENTER then
      { b with center_bucket := b.center_bucket ++ [move] }
    else
      { b with other := b.other ++ [move] }

/-- `order_moves` of `ai_prophet.py`: the hinted best move first, then
winning captures by MVV-LVA descending (stable), equal captures, killer
moves, history moves, center moves, the rest, and losing captures last.
The killer pair is `killerMoves[depth]`; the history dict holds strictly
positive weights (every write adds `depth² ≥ 1` at `depth ≥ 1`), so dict
membership is a nonzero entry. -/
def order_moves (killer : Option MoveP × Option MoveP)
    (historyTable : (ColorT × PieceT) × Nat × Nat → Nat)
    (moves : List MoveP) (best_move : Option MoveP) : List MoveP :=
  let b := moves.foldl (bucketsStep killer.1 killer.2 historyTable best_move)
    ⟨[], [], [], [], [], [], [], []⟩
  b.best_bucket ++
    (stableSort (fun x y => y.1 < x.1) b.win_cap).map (fun p => p.2) ++
    b.eq_cap ++ b.killer_bucket ++ b.history_bucket ++ b.center_bucket ++
    b.other ++ b.lose_cap

/-- The capture list quiescence explores: the legal moves filtered to
captures, stably sorted by MVV-LVA descending
(`captures.sort(key=mvv_lva, reverse=True)`). -/
def sortedCaptures {P K : Type} (G : Game P MoveP K) (pos : P) : List MoveP :=
  stableSort (fun a b => mvv_lva b < mvv_lva a)
    ((G.moves pos).filter (fun m => m.pieceCaptured.isSome))

/-- The capture loop of `quiescence` (`ai_prophet.py` lines 221–229):
return `beta` on the first child score ≥ `beta` (fail-high), otherwise
raise `alpha` to any higher child score and continue; `recQ` is the
recursive quiescence call. -/
def qloopF {P K : Type} (G : Game P MoveP K)
    (recQ : P → Rat → Rat → Rat → Rat) (pos : P) :
    List MoveP → Rat → Rat → Rat → Rat
  | [], alpha, _, _ => alpha
  | m :: ms, alpha, beta, turn =>
    let score := -(recQ (G.apply pos m) (-beta) (-alpha) (-turn))
    if beta ≤ score then beta
    else qloopF G recQ pos ms (if alpha < score then score else alpha) beta turn

/-- `quiescence` of `ai_prophet.py` (lines 195–231), within its time
budget (the deadline check raises only on timeout, which is outside this
embedding).  The Python recursion terminates because every capture removes
a piece; the abstract game supplies no such measure, so the embedding
carries fuel — with fuel at least the number of pieces on the board the
fuel-exhausted branch (returning `alpha`) is never reached. -/
def quiescence {P K : Type} (G : Game P MoveP K) : Nat → P → Rat → Rat → Rat → Rat
  | 0, _, alpha, _, _ => alpha
  | n + 1, pos, alpha, beta, turn =>
    let stand_pat := turn * G.eval pos
    if beta ≤ stand_pat then beta
    else
      let alpha1 := if alpha < stand_pat then stand_pat else alpha
      qloopF G (quiescence G n) pos (sortedCaptures G pos) alpha1 beta turn

/-- The module-level mutable state of `ai_prophet.py` that `negamax`
touches: the persistent `transTable` (flags are the source's strings
`"exact"`/`"lower"`/`"upper"`), `killerMoves` indexed by depth,
`historyTable`, and the `search_history` dict passed down the recursion. -/
structure PState (K : Type) where
  transTable : K → Option (Nat × Rat × String)
  killerMoves : Nat → Option MoveP × Option MoveP
  historyTable : (ColorT × PieceT) × Nat × Nat → Nat
  searchHist : K → Nat

/-- The transposition-table block of `negamax` (`ai_prophet.py` lines
279–286): with a stored entry of depth ≥ the requested depth, an `"exact"`
flag returns the stored score, `"lower"` raises alpha to at least it,
`"upper"` lowers beta to at most it, and a collapsed window
(`alpha ≥ beta`) returns the stored score; otherwise the (possibly
tightened) window is searched. -/
def ttProbe (e : Option (Nat × Rat × String)) (depth : Nat) (alpha beta : Rat) :
    Sum Rat (Rat × Rat) :=
  match e with
  | none => Sum.inr (alpha, beta)
  | some (tt_d, tt_s, tt_f) =>
    if depth ≤ tt_d then
      if tt_f = "exact" then Sum.inl tt_s
      else
        let alpha1 := if tt_f = "lower" then max alpha tt_s else alpha
        let beta1 := if tt_f = "upper" then min beta tt_s else beta
        if beta1 ≤ alpha1 then Sum.inl tt_s else Sum.inr (alpha1, beta1)
    else Sum.inr (alpha, beta)

/-- The move loop of `negamax` (`ai_prophet.py` lines 298–316): fold
negated child scores, raise alpha, and on a cutoff update the killer pair
and the history table (by `depth²`) when the cutting move is quiet, then
break. -/
def negamaxLoop {P K : Type} (G : Game P MoveP K)
    (rec : P → List MoveP → Rat → Rat → Rat → Option MoveP → PState K →
      Rat × PState K)
    (depth : Nat) (pos : P) :
    List MoveP → Rat → Rat → Rat → Rat → PState K → Rat × PState K
  | [], maxScore, _, _, _, st => (maxScore, st)
  | move :: ms, maxScore, alpha, beta, turn, st =>
    let child := G.apply pos move
    let r := rec child (G.moves child) (-beta) (-alpha) (-turn) none st
    let score := -r.1
    let maxScore1 := if maxScore < score then score else maxScore
    let alpha1 := if alpha < maxScore1 then maxScore1 else alpha
    if beta ≤ alpha1 then
      let st1 := r.2
      let st2 :=
        if move.pieceCaptured.isSome then st1
        else
          let km := st1.killerMoves depth
          let km1 := if km.1 ≠ some move then (some move, km.1) else km
          let hkey := (move.pieceMoved, move.endRow, move.endCol)
          { st1 with
            killerMoves := fun d => if d = depth then km1 else st1.killerMoves d,
            historyTable := fun h => if h = hkey then st1.historyTable h + depth * depth
                            else st1.historyTable h }
      (maxScore1, st2)
    else negamaxLoop G rec depth pos ms maxScore1 alpha1 beta turn r.2

/-- The body of `negamax` after the transposition-table block: quiescence
at depth 0, otherwise order the moves, mark the position on the search
path, run the move loop, unmark, classify the bound
(`maxScore ≤ original alpha ⇒ "upper"`, `maxScore ≥ beta ⇒ "lower"`, else
`"exact"`) and store it (`ai_prophet.py` lines 288–325). -/
def pAfterTT {P K : Type} [DecidableEq K] (G : Game P MoveP K) (qf : Nat)
    (rec : P → List MoveP → Rat → Rat → Rat → Option MoveP → PState K →
      Rat × PState K)
    (depth : Nat) (pos : P) (moves : List MoveP) (alpha beta turn : Rat)
    (best_move : Option MoveP) (st : PState K) : Rat × PState K :=
  if depth = 0 then (quiescence G qf pos alpha beta turn, st)
  else
    let ordered := order_moves (st.killerMoves depth) st.historyTable moves best_move
    let key := G.key pos
    let st1 := { st with
      searchHist := fun k => if k = key then st.searchHist k + 1 else st.searchHist k }
    let r := negamaxLoop G rec depth pos ordered (-CHECKMATE) alpha beta turn st1
    let st2 := r.2
    let st3 := { st2 with
      searchHist := fun k => if k = key then st2.searchHist k - 1 else st2.searchHist k }
    let flag := if r.1 ≤ alpha then "upper"
                else if beta ≤ r.1 then "lower" else "exact"
    let st4 := { st3 with
      transTable := fun k => if k = key then some (depth, r.1, flag) else st3.transTable k }
    (r.1, st4)

/-- The body of `negamax` after the repetition check: the
transposition-table block of `ttProbe`, then `pAfterTT` at the possibly
tightened window. -/
def pAfterRep {P K : Type} [DecidableEq K] (G : Game P MoveP K) (qf : Nat)
    (rec : P → List MoveP → Rat → Rat → Rat → Option MoveP → PState K →
      Rat × PState K)
    (depth : Nat) (pos : P) (moves : List MoveP) (alpha beta turn : Rat)
    (best_move : Option MoveP) (st : PState K) : Rat × PState K :=
  match ttProbe (st.transTable (G.key pos)) depth alpha beta with
  | Sum.inl s => (s, st)
  | Sum.inr (alpha1, beta1) =>
    pAfterTT G qf rec depth pos moves alpha1 beta1 turn best_move st

/-- Recursion stub for depth 0; `pAfterTT` at depth 0 delegates to
quiescence before ever invoking its recursive argument, so this function is
never applied. -/
def pDummy {P K : Type} :
    P → List MoveP → Rat → Rat → Rat → Option MoveP → PState K → Rat × PState K :=
  fun _ _ _ _ _ _ st => (0, st)

/-- `negamax` of `ai_prophet.py` (lines 253–325), within its time budget:
repetition check first (game-history count plus search-path count ≥ 2
returns the draw score 0 at once, before the transposition lookup), then
the transposition block and the search body.  `gh` is the module-level
`gameHistory`, read-only during the search; `qf` the quiescence fuel. -/
def negamax {P K : Type} [DecidableEq K] (G : Game P MoveP K)
    (gh : K → Nat) (qf : Nat) :
    Nat → P → List MoveP → Rat → Rat → Rat → Option MoveP → PState K →
      Rat × PState K
  | 0, pos, moves, alpha, beta, turn, best_move, st =>
    if 2 ≤ gh (G.key pos) + st.searchHist (G.key pos) then (0, st)
    else pAfterRep G qf pDummy 0 pos moves alpha beta turn best_move st
  | d + 1, pos, moves, alpha, beta, turn, best_move, st =>
    if 2 ≤ gh (G.key pos) + st.searchHist (G.key pos) then (0, st)
    else pAfterRep G qf (negamax G gh qf d) (d + 1) pos moves alpha beta turn best_move st

/-- The recursive search one level down, as `negamax` passes it to its
move loop at a given depth. -/
def pPrev {P K : Type} [DecidableEq K] (G : Game P MoveP K)
    (gh : K → Nat) (qf : Nat) : Nat →
    P → List MoveP → Rat → Rat → Rat → Option MoveP → PState K → Rat × PState K
  | 0 => pDummy
  | d + 1 => negamax G gh qf d

end Prophet

-- ----------------------------------------------------------------------------
-- findMoveNegaMaxAlphaBeta of ai_gambler.py
-- ----------------------------------------------------------------------------

namespace Gambler

/-- The mutable module state of `ai_gambler.py` that the search touches:
the per-move `transTable` keyed by `boardKey = str(gs.board) +
str(gs.whiteToMove)` (no bound flags — entries are bare
`(depth, score)` pairs), `killerMoves`, the search-path dict keyed by the
full `_board_key`, and the global `nextMove`. -/
structure GState (K BK : Type) where
  transTable : BK → Option (Nat × Rat)
  killerMoves : Nat → Option MoveP × Option MoveP
  searchHist : K → Nat
  nextMove : Option MoveP

/-- `movePriority` of `orderMoves` (`ai_gambler.py` lines 131–138):
captures 3, first killer 2, second killer 1, quiet 0. -/
def movePriority (killer : Option MoveP × Option MoveP) (m : MoveP) : Nat :=
  if m.isCapture then 3
  else if killer.1 = some m then 2
  else if killer.2 = some m then 1
  else 0

/-- `orderMoves` of `ai_gambler.py`: stable descending sort by
`movePriority`. -/
def orderMoves (killer : Option MoveP × Option MoveP) (moves : List MoveP) :
    List MoveP :=
  stableSort (fun a b => movePriority killer b < movePriority killer a) moves

/-- The move loop of `findMoveNegaMaxAlphaBeta` (`ai_gambler.py` lines
185–219): fold negated child scores, record the move into the global
`nextMove` when at the module depth `DC` and strictly improving, raise
alpha with `max`, and on a cutoff save a quiet move into the killer pair
and break. -/
def gLoopF {P K BK : Type} (G : Game P MoveP K)
    (rec : P → List MoveP → Rat → Rat → Rat → GState K BK → Rat × GState K BK)
    (DC dcur : Nat) (pos : P) :
    List MoveP → Rat → Rat → Rat → Rat → GState K BK → Rat × GState K BK
  | [], maxScore, _, _, _, st => (maxScore, st)
  | move :: ms, maxScore, alpha, beta, turn, st =>
    let child := G.apply pos move
    let r := rec child (G.moves child) (-beta) (-alpha) (-turn) st
    let score := -r.1
    let maxScore1 := if maxScore < score then score else maxScore
    let st1 := if maxScore < score ∧ dcur = DC then { r.2 with nextMove := some move } else r.2
    let alpha1 := max alpha maxScore1
    if beta ≤ alpha1 then
      let st2 :=
        if move.isCapture then st1
        else
          let km := st1.killerMoves dcur
          let km1 := if km.1 ≠ some move then (some move, km.1) else km
          { st1 with killerMoves := fun d => if d = dcur then km1 else st1.killerMoves d }
      (maxScore1, st2)
    else gLoopF G rec DC dcur pos ms maxScore1 alpha1 beta turn st1

/-- The body of `findMoveNegaMaxAlphaBeta` after the transposition lookup
(`ai_gambler.py` lines 173–227): leaf evaluation at depth 0 (no store),
otherwise order the moves, mark the search path, run the loop, unmark, and
store `(depth, maxScore)` under the board key. -/
def gAfterTT {P K BK : Type} [DecidableEq K] [DecidableEq BK] (G : Game P MoveP K)
    (bkey : P → BK)
    (rec : P → List MoveP → Rat → Rat → Rat → GState K BK → Rat × GState K BK)
    (DC dcur : Nat) (pos : P) (vm : List MoveP) (alpha beta turn : Rat)
    (st : GState K BK) : Rat × GState K BK :=
  if dcur = 0 then (turn * G.eval pos, st)
  else
    let vm1 := orderMoves (st.killerMoves dcur) vm
    let rk := G.key pos
    let st1 := { st with
      searchHist := fun k => if k = rk then st.searchHist k + 1 else st.searchHist k }
    let r := gLoopF G rec DC dcur pos vm1 (-CHECKMATE) alpha beta turn st1
    let st2 := r.2
    let st3 := { st2 with
      searchHist := fun k => if k = rk then st2.searchHist k - 1 else st2.searchHist k }
    let st4 := { st3 with
      transTable := fun k => if k = bkey pos then some (dcur, r.1) else st3.transTable k }
    (r.1, st4)

/-- The body of `findMoveNegaMaxAlphaBeta` after the repetition check
(`ai_gambler.py` lines 167–171): a stored entry whose depth is ≥ the
requested depth is returned directly (gambler entries carry no bound
kind), otherwise the node is searched. -/
def gAfterRep {P K BK : Type} [DecidableEq K] [DecidableEq BK] (G : Game P MoveP K)
    (bkey : P → BK)
    (rec : P → List MoveP → Rat → Rat → Rat → GState K BK → Rat × GState K BK)
    (DC dcur : Nat) (pos : P) (vm : List MoveP) (alpha beta turn : Rat)
    (st : GState K BK) : Rat × GState K BK :=
  match st.transTable (bkey pos) with
  | some e =>
    if dcur ≤ e.1 then (e.2, st)
    else gAfterTT G bkey rec DC dcur pos vm alpha beta turn st
  | none => gAfterTT G bkey rec DC dcur pos vm alpha beta turn st

/-- Recursion stub for depth 0; `gAfterTT` at depth 0 returns the leaf
evaluation before ever invoking its recursive argument, so this function is
never applied. -/
def gDummy {P K BK : Type} :
    P → List MoveP → Rat → Rat → Rat → GState K BK → Rat × GState K BK :=
  fun _ _ _ _ _ st => (0, st)

/-- `findMoveNegaMaxAlphaBeta` of `ai_gambler.py` (lines 147–227):
repetition check on the full `_board_key` first (combined count ≥ 2
returns the draw score 0 before the transposition lookup), then the
transposition lookup on the board key and the search body. -/
def findMoveNegaMaxAlphaBeta {P K BK : Type} [DecidableEq K] [DecidableEq BK]
    (G : Game P MoveP K) (bkey : P → BK) (gh : K → Nat) (DC : Nat) :
    Nat → P → List MoveP → Rat → Rat → Rat → GState K BK → Rat × GState K BK
  | 0, pos, vm, alpha, beta, turn, st =>
    if 2 ≤ gh (G.key pos) + st.searchHist (G.key pos) then (0, st)
    else gAfterRep G bkey gDummy DC 0 pos vm alpha beta turn st
  | d + 1, pos, vm, alpha, beta, turn, st =>
    if 2 ≤ gh (G.key pos) + st.searchHist (G.key pos) then (0, st)
    else gAfterRep G bkey (findMoveNegaMaxAlphaBeta G bkey gh DC d) DC (d + 1)
      pos vm alpha beta turn st

/-- The recursive search one level down, as the gambler's search passes it
to its move loop at a given depth. -/
def gPrev {P K BK : Type} [DecidableEq K] [DecidableEq BK]
    (G : Game P MoveP K) (bkey : P → BK) (gh : K → Nat) (DC : Nat) : Nat →
    P → List MoveP → Rat → Rat → Rat → GState K BK → Rat × GState K BK
  | 0 => gDummy
  | d + 1 => findMoveNegaMaxAlphaBeta G bkey gh DC d

end Gambler

-- ----------------------------------------------------------------------------
-- _negamax of ai_fortress.py
-- ----------------------------------------------------------------------------

namespace Fortress

/-- `order_moves` of `ai_fortress.py` (lines 156–167): winning captures,
equal captures, quiet moves, losing captures, by fortress piece values. -/
def order_moves (moves : List MoveP) : List MoveP :=
  let b := moves.foldl
    (fun (b : List MoveP × List MoveP × List MoveP × List MoveP) move =>
      if move.pieceCaptured.isSome then
        let gain := (match move.pieceCaptured with
          | none => 0
          | some (_, pc) => pieceScoreFortress pc) - pieceScoreFortress move.pieceMoved.2
        if 0 < gain then (b.1 ++ [move], b.2.1, b.2.2.1, b.2.2.2)
        else if gain = 0 then (b.1, b.2.1 ++ [move], b.2.2.1, b.2.2.2)
        else (b.1, b.2.1, b.2.2.1, b.2.2.2 ++ [move])
      else (b.1, b.2.1, b.2.2.1 ++ [move], b.2.2.2))
    ([], [], [], [])
  b.1 ++ b.2.1 ++ b.2.2.1 ++ b.2.2.2

/-- The move loop of `_negamax` (`ai_fortress.py` lines 196–208): plain
fail-soft alpha-beta threading the per-call transposition dict. -/
def fLoopF {P K BK : Type} (G : Game P MoveP K)
    (rec : P → List MoveP → Rat → Rat → Rat → (BK → Option (Nat × Rat × String)) →
      Rat × (BK → Option (Nat × Rat × String)))
    (pos : P) :
    List MoveP → Rat → Rat → Rat → Rat → (BK → Option (Nat × Rat × String)) →
      Rat × (BK → Option (Nat × Rat × String))
  | [], maxScore, _, _, _, tt => (maxScore, tt)
  | move :: ms, maxScore, alpha, beta, turn, tt =>
    let child := G.apply pos move
    let r := rec child (G.moves child) (-beta) (-alpha) (-turn) tt
    let score := -r.1
    let maxScore1 := if maxScore < score then score else maxScore
    let alpha1 := if alpha < maxScore1 then maxScore1 else alpha
    if beta ≤ alpha1 then (maxScore1, r.2)
    else fLoopF G rec pos ms maxScore1 alpha1 beta turn r.2

/-- The body of `_negamax` after the transposition block (`ai_fortress.py`
lines 185–214): at depth 0 evaluate and store an `"exact"` depth-0 entry;
otherwise order the moves when `depth ≥ 2`, run the loop, classify the
bound against the original alpha and beta, and store it under the board
key `(str(gs.board), gs.whiteToMove)`. -/
def fAfterTT {P K BK : Type} [DecidableEq BK] (G : Game P MoveP K) (bkey : P → BK)
    (rec : P → List MoveP → Rat → Rat → Rat → (BK → Option (Nat × Rat × String)) →
      Rat × (BK → Option (Nat × Rat × String)))
    (depth : Nat) (pos : P) (moves : List MoveP) (alpha beta turn : Rat)
    (tt : BK → Option (Nat × Rat × String)) :
    Rat × (BK → Option (Nat × Rat × String)) :=
  if depth = 0 then
    let result := turn * G.eval pos
    (result, fun k => if k = bkey pos then some (0, result, "exact") else tt k)
  else
    let moves1 := if 2 ≤ depth then order_moves moves else moves
    let r := fLoopF G rec pos moves1 (-CHECKMATE) alpha beta turn tt
    let flag := if r.1 ≤ alpha then "upper"
                else if beta ≤ r.1 then "lower" else "exact"
    (r.1, fun k => if k = bkey pos then some (depth, r.1, flag) else r.2 k)

/-- Recursion stub for depth 0; `fAfterTT` at depth 0 returns the leaf
evaluation before ever invoking its recursive argument, so this function is
never applied. -/
def fDummy {P K BK : Type} :
    P → List MoveP → Rat → Rat → Rat → (BK → Option (Nat × Rat × String)) →
      Rat × (BK → Option (Nat × Rat × String)) :=
  fun _ _ _ _ _ tt => (0, tt)

/-- `_negamax` of `ai_fortress.py` (lines 174–214): the transposition
check (same `"exact"`/`"lower"`/`"upper"` rule as the prophet's, embedded
by the shared `Prophet.ttProbe`) followed by the search body; the
per-root-call table dict is threaded. -/
def _negamax {P K BK : Type} [DecidableEq BK] (G : Game P MoveP K) (bkey : P → BK) :
    Nat → P → List MoveP → Rat → Rat → Rat → (BK → Option (Nat × Rat × String)) →
      Rat × (BK → Option (Nat × Rat × String))
  | 0, pos, moves, alpha, beta, turn, tt =>
    (match Prophet.ttProbe (tt (bkey pos)) 0 alpha beta with
    | Sum.inl s => (s, tt)
    | Sum.inr w => fAfterTT G bkey (fDummy (K := K)) 0 pos moves w.1 w.2 turn tt)
  | d + 1, pos, moves, alpha, beta, turn, tt =>
    (match Prophet.ttProbe (tt (bkey pos)) (d + 1) alpha beta with
    | Sum.inl s => (s, tt)
    | Sum.inr w => fAfterTT G bkey (_negamax G bkey d) (d + 1) pos moves w.1 w.2 turn tt)

/-- The recursive search one level down, as `_negamax` passes it to its
move loop at a given depth. -/
def fPrev {P K BK : Type} [DecidableEq BK] (G : Game P MoveP K) (bkey : P → BK) :
    Nat → P → List MoveP → Rat → Rat → Rat → (BK → Option (Nat × Rat × String)) →
      Rat × (BK → Option (Nat × Rat × String))
  | 0 => fDummy (K := K)
  | d + 1 => _negamax G bkey d

end Fortress

-- ----------------------------------------------------------------------------
-- Root-level findBestMove of ai_tactician.py
-- ----------------------------------------------------------------------------

namespace Tactician

/-- `CAPTURE_BONUS = 1.5` of `ai_tactician.py`. -/
def CAPTURE_BONUS : Rat := 3/2

/-- `findBestMove` of `ai_tactician.py` (lines 191–261).  The outcome of
`random.shuffle(validMoves)` is the input `shuffled` (the caller's list
object holds exactly this permutation afterwards; it is returned as the
second component).  Per move: a child position already twice in the game
history is scored `-1000`; otherwise the negated depth-`DEPTH-1` negamax
score, plus the capture bonus `captured_value × (CAPTURE_BONUS − 1)` for
captures.  The scores are stably sorted descending and the first is
chosen; `move_scores[0][0]` raises `IndexError` when the list is empty, so
the embedding returns `none` for the chosen move in that case. -/
def findBestMove {P K : Type} [DecidableEq K] (G : Game P MoveP K)
    (gh : K → Nat) (pos : P) (shuffled : List MoveP) :
    Option MoveP × List MoveP × (K → Nat) :=
  let gh1 : K → Nat := fun k => if k = G.key pos then gh k + 1 else gh k
  let t : Rat := if G.whiteToMove pos then 1 else -1
  let move_scores := shuffled.map (fun move =>
    let child := G.apply pos move
    if 2 ≤ gh1 (G.key child) then (move, (-1000 : Rat))
    else
      let score := -(findMoveNegaMaxAlphaBeta G gh1 DEPTH (DEPTH - 1) child
        (G.moves child) (-CHECKMATE) CHECKMATE (-t) (fun _ => 0) none).1
      if move.pieceCaptured.isSome then
        let captured_value : Rat := match move.pieceCaptured with
          | none => 0
          | some (_, pc) => pieceScore pc
        (move, score + captured_value * (CAPTURE_BONUS - 1))
      else (move, score))
  let sorted := stableSort (fun a b => b.2 < a.2) move_scores
  ((sorted.head?).map (fun x => x.1), shuffled, gh1)

end Tactician

-- ----------------------------------------------------------------------------
-- Root-level search of ai_fortress.py
-- ----------------------------------------------------------------------------

namespace Fortress

/-- `DEPTH = 3` of `ai_fortress.py`. -/
def DEPTH : Nat := 3

/-- `VARIANCE_PENALTY = 0.3`. -/
def VARIANCE_PENALTY : Rat := 3/10

/-- `TRADE_THRESHOLD = 1.0`. -/
def TRADE_THRESHOLD : Rat := 1

/-- `TRADE_BONUS = 0.25`. -/
def TRADE_BONUS : Rat := 1/4

/-- `OVEREXTENSION_PENALTY = 0.3`. -/
def OVEREXTENSION_PENALTY : Rat := 3/10

/-- `is_overextending` of `ai_fortress.py` (lines 127–135). -/
def is_overextending (move : MoveP) (color : ColorT) : Bool :=
  if move.pieceMoved.2 ≠ PieceT.Q ∧ move.pieceMoved.2 ≠ PieceT.R then false
  else if move.pieceCaptured.isSome then false
  else if color = ColorT.w then decide (move.endRow ≤ 2)
  else decide (5 ≤ move.endRow)

/-- `material_balance` of `ai_fortress.py` (lines 138–149). -/
def material_balance (gs : GS) (color : ColorT) : Rat :=
  (List.range 8).foldl (fun s row =>
    (List.range 8).foldl (fun s col =>
      match boardSq gs row col with
      | none => s
      | some (c, piece) =>
        let val := pieceScoreFortress piece
        if c = color then s + val else s - val) s) 0

/-- The fortress board key `(str(gs.board), gs.whiteToMove)` used for its
per-call transposition dict. -/
def fboardKey (gs : GS) : List (List String) × Bool :=
  (reprBoard gs.board, gs.whiteToMove)

/-- The game the fortress root search runs over: the external engine's
move generation and application (modelled from the spec as opaque
functions) with the fortress's own `scoreBoard`. -/
def fortressGame (mv : GS → List MoveP) (ap : GS → MoveP → GS) :
    Game GS MoveP (List (List String) × Bool) where
  key := fboardKey
  moves := mv
  apply := ap
  eval := scoreBoard
  whiteToMove := fun gs => gs.whiteToMove

/-- `_root_search` of `ai_fortress.py` (lines 221–270): a fresh
transposition dict, a shallow depth-0 probe pass over the ordered root
moves, a full-depth pass sharing the same dict with a rising alpha, then
the risk adjustment (variance penalty, overextension penalty, trade
bonus), a stable descending sort by adjusted score, and
`adjusted[0][0]` — which raises `IndexError` on an empty move list, so the
embedding returns `none` there.  Returns the chosen move and the display
list of `(move, adjusted)` pairs. -/
def _root_search (mv : GS → List MoveP) (ap : GS → MoveP → GS) (gs : GS)
    (validMoves : List MoveP) (depth : Nat) (turnMultiplier : Rat)
    (color : ColorT) : Option (MoveP × List (MoveP × Rat)) :=
  let G := fortressGame mv ap
  let ordered := order_moves validMoves
  let mat_advantage := material_balance gs color
  let pass1 := ordered.foldl
    (fun (acc : (List (List String) × Bool → Option (Nat × Rat × String)) × List (MoveP × Rat)) move =>
      let child := ap gs move
      let r := _negamax G fboardKey 0 child (mv child) (-CHECKMATE) CHECKMATE
        (-turnMultiplier) acc.1
      (r.2, acc.2 ++ [(move, -r.1)]))
    (fun _ => none, [])
  let pass2 := ordered.foldl
    (fun (acc : (List (List String) × Bool → Option (Nat × Rat × String)) × List (MoveP × Rat) × Rat) move =>
      let child := ap gs move
      let r := _negamax G fboardKey (depth - 1) child (mv child) (-CHECKMATE)
        (-acc.2.2) (-turnMultiplier) acc.1
      let score := -r.1
      (r.2, acc.2.1 ++ [(move, score)], if acc.2.2 < score then score else acc.2.2))
    (pass1.1, [], -CHECKMATE)
  let adjusted := List.zipWith
    (fun (p1 : MoveP × Rat) (p2 : MoveP × Rat) =>
      let move := p1.1
      let s1 := p1.2
      let raw := p2.2
      let adj := raw - VARIANCE_PENALTY * |raw - s1|
      let adj := if is_overextending move color then adj - OVEREXTENSION_PENALTY else adj
      let adj :=
        if TRADE_THRESHOLD < mat_advantage ∧ move.pieceCaptured.isSome ∧
            (match move.pieceCaptured with
              | none => (0 : Rat)
              | some (_, pc) => pieceScoreFortress pc) ≥ pieceScoreFortress move.pieceMoved.2
        then adj + TRADE_BONUS else adj
      (move, raw, adj))
    pass1.2 pass2.2.1
  let adjustedSorted := stableSort (fun a b => b.2.2 < a.2.2) adjusted
  match adjustedSorted.head? with
  | none => none
  | some best => some (best.1, adjustedSorted.map (fun x => (x.1, x.2.2)))

/-- `findBestMove` of `ai_fortress.py` (lines 277–311): shuffle the
caller's move list (the shuffle outcome is the input `shuffled`, which the
caller's list object holds afterwards and which is returned as the second
component), run the root search, and return its choice; with no legal
moves `_root_search`'s `adjusted[0][0]` raises `IndexError`, embedded as a
`none` choice. -/
def findBestMove (mv : GS → List MoveP) (ap : GS → MoveP → GS) (gs : GS)
    (shuffled : List MoveP) : Option MoveP × List MoveP :=
  let color := if gs.whiteToMove then ColorT.w else ColorT.b
  let turn : Rat := if gs.whiteToMove then 1 else -1
  match _root_search mv ap gs shuffled DEPTH turn color with
  | none => (none, shuffled)
  | some r => (some r.1, shuffled)

end Fortress

-- ----------------------------------------------------------------------------
-- Root-level findBestMove of ai_gambler.py
-- ----------------------------------------------------------------------------

namespace Gambler

/-- `DEPTH = 4` of `ai_gambler.py`. -/
def DEPTH : Nat := 4

/-- The gambler's transposition-cache key
`boardKey = str(gs.board) + str(gs.whiteToMove)`
(`ai_gambler.py` line 154).  Every board renders to a string of the same
fixed length (64 two-character squares in a fixed list layout), so the
concatenation with the `"True"`/`"False"` suffix is an injective encoding
of exactly this pair — it carries no castling or en-passant information. -/
def boardKey (gs : GS) : List (List String) × Bool :=
  (reprBoard gs.board, gs.whiteToMove)

/-- The candidate-list walk of `findBestMove` (`ai_gambler.py` lines
285–293): starting from `[nextMove]`, append each listed move that is
distinct from the best move and not yet a candidate, stopping as soon as
three candidates exist. -/
def buildTopGo {M : Type} [DecidableEq M] (best : M) : List M → List M → List M
  | acc, [] => acc
  | acc, m :: ms =>
    let acc1 := if m ≠ best ∧ m ∉ acc then acc ++ [m] else acc
    if 3 ≤ acc1.length then acc1 else buildTopGo best acc1 ms

/-- `topMoves`: the deterministic best move followed by up to two distinct
alternatives from the (shuffled) legal-move list. -/
def topMoves {M : Type} [DecidableEq M] (best : M) (validMoves : List M) : List M :=
  buildTopGo best [best] validMoves

/-- The weight table of `findBestMove` (`ai_gambler.py` lines 296–306):
`[1.0]` for one candidate, `[0.75, 0.25]` for two, `[0.65, 0.25, 0.10]`
for three or more. -/
def weightsFor (move_count : Nat) : List Rat :=
  if move_count = 1 then [1]
  else if move_count = 2 then [3/4, 1/4]
  else [13/20, 1/4, 1/10]

/-- Modelled from the spec: the claimed weight rule — "a fixed weight
distribution (e.g., 0.65/0.25/0.10, collapsing proportionally if fewer
than three candidates exist)": take the first `n` of the fixed weights and
renormalise them to sum 1. -/
def proportionalWeights (n : Nat) : List Rat :=
  let w := ([13/20, 1/4, 1/10] : List Rat).take n
  w.map (fun x => x / w.sum)

/-- The possible outcomes of the gambler's `findBestMove`: the
distinguished no-move signal (`returnQueue.put(None)` on an empty move
list), the random-move fallback when the search set no `nextMove`, or the
weighted-random pick, whose sampled result `random.choices(topMoves,
weights)[0]` is outside the embedding — the candidate list and weights it
samples from are returned instead. -/
inductive Outcome where
  | noMove
  | fallbackRandom
  | picked (tops : List MoveP) (weights : List Rat)
  deriving DecidableEq

/-- `findBestMove` of `ai_gambler.py` (lines 234–325): record the position
in the game history; with no legal moves signal `noMove` (the caller's
list is untouched — the shuffle is never reached); otherwise clear the
transposition table, reset `nextMove`, run the full-depth search with a
fresh search-path dict, and either fall back to a random move (list again
untouched) or build the candidate list from the shuffled list `σ` (which
the caller's list object holds from then on) and its weights. -/
def findBestMove {P K BK : Type} [DecidableEq K] [DecidableEq BK]
    (G : Game P MoveP K) (bkey : P → BK) (gh : K → Nat) (pos : P)
    (vm σ : List MoveP) (st0 : GState K BK) :
    Outcome × List MoveP × (K → Nat) :=
  let gh1 : K → Nat := fun k => if k = G.key pos then gh k + 1 else gh k
  if vm = [] then (.noMove, vm, gh1)
  else
    let t : Rat := if G.whiteToMove pos then 1 else -1
    let st1 : GState K BK :=
      { st0 with transTable := fun _ => none, nextMove := none,
                 searchHist := fun _ => 0 }
    let r := findMoveNegaMaxAlphaBeta G bkey gh1 DEPTH DEPTH pos vm
      (-CHECKMATE) CHECKMATE t st1
    match r.2.nextMove with
    | none => (.fallbackRandom, vm, gh1)
    | some best =>
      let tops := topMoves best σ
      let tops := if 3 < tops.length then tops.take 3 else tops
      let weights := weightsFor tops.length
      (.picked tops weights, σ, gh1)

end Gambler

-- ----------------------------------------------------------------------------
-- Concrete instances used by witnesses
-- ----------------------------------------------------------------------------

/-- A quiet knight move, used as a concrete move value. -/
def moveA : MoveP := ⟨0, 0, 1, 0, (ColorT.w, PieceT.N), none, false, false⟩

/-- A quiet bishop move, used as a concrete move value. -/
def moveB : MoveP := ⟨0, 0, 2, 0, (ColorT.w, PieceT.B), none, false, false⟩

/-- A game with two equal-scoring quiet root moves `moveA`/`moveB` from
position 0 (leading to disjoint chains), every evaluation 0. -/
def twoMoveGame : Game Nat MoveP Nat where
  key := id
  moves := fun p => if p = 0 then [moveA, moveB] else [moveA]
  apply := fun p m => if p = 0 then (if m = moveA then 1 else 2) else p + 10
  eval := fun _ => 0
  whiteToMove := fun _ => true

/-- A trivial one-position game with no legal moves and evaluation 0. -/
def unitGame : Game Unit MoveP Unit where
  key := fun _ => ()
  moves := fun _ => []
  apply := fun p _ => p
  eval := fun _ => 0
  whiteToMove := fun _ => true

/-- A trivial one-position game with no legal moves and evaluation 5. -/
def unitGameFive : Game Unit MoveP Unit where
  key := fun _ => ()
  moves := fun _ => []
  apply := fun p _ => p
  eval := fun _ => 5
  whiteToMove := fun _ => true

/-- The prophet's module state with empty tables. -/
def pStateEmpty : Prophet.PState Unit :=
  ⟨fun _ => none, fun _ => (none, none), fun _ => 0, fun _ => 0⟩

/-- The gambler's module state with empty tables. -/
def gStateEmpty : Gambler.GState Unit Unit :=
  ⟨fun _ => none, fun _ => (none, none), fun _ => 0, none⟩

/-- A prophet module state whose table holds a depth-5 `"exact"` entry of
score 7 for the single key. -/
def pStateTT : Prophet.PState Unit :=
  ⟨fun _ => some (5, 7, "exact"), fun _ => (none, none), fun _ => 0, fun _ => 0⟩

-- ============================================================================
-- THEOREMS
-- ============================================================================

theorem dictInsert_length {K V : Type} [DecidableEq K] (t : List (K × V)) (k : K) (v : V) :
    (dictInsert t k v).length =
      if t.any (fun p => p.1 = k) then t.length else t.length + 1 := by
  unfold dictInsert
  split <;> simp

theorem dictGet_dictInsert {K V : Type} [DecidableEq K] (t : List (K × V)) (k : K) (v : V) :
    dictGet (dictInsert t k v) k = some v := by
  induction t with
  | nil => simp [dictInsert, dictGet]
  | cons p t ih =>
    by_cases hp : p.1 = k
    · simp [dictInsert, dictGet, hp]
    · by_cases ht : t.any (fun q => q.1 = k)
      · have ih' := ih
        simp only [dictInsert, ht, if_true] at ih'
        simpa [dictInsert, dictGet, hp, ht] using ih'
      · have ih' := ih
        simp only [dictInsert, ht, if_false, Bool.false_eq_true] at ih'
        simpa [dictInsert, dictGet, hp, ht] using ih'

/-- C6 (amended): the bounded `TranspositionTable` class does enforce its
configured maximum: if the table currently holds at most `max_size` entries
(and `max_size ≥ 2`), a `store` leaves at most `max_size` entries, and the
stored key afterwards maps to the stored value (a store to an existing key
overwrites it).  The engines' own tables — in particular the game-long
`transTable` of `ai_prophet.py` — are plain dicts that never evict, so the
bound does not hold for every table the engine keeps
(`prophet_table_unbounded`). -/
theorem transTable_store_bounded {K V : Type} [DecidableEq K]
    (tt : TranspositionTable K V) (k : K) (d : Nat) (v : V)
    (h2 : 2 ≤ tt.max_size) (hlen : tt.table.length ≤ tt.max_size) :
    (tt.store k d v).table.length ≤ tt.max_size ∧
    dictGet (tt.store k d v).table (k, d) = some v := by
  refine ⟨?_, dictGet_dictInsert _ _ _⟩
  simp only [TranspositionTable.store]
  by_cases hc : tt.max_size ≤ tt.table.length
  · simp only [hc, if_true]
    rw [dictInsert_length]
    have hdrop : (tt.table.drop (tt.max_size / 2)).length =
        tt.table.length - tt.max_size / 2 := List.length_drop _ _
    split <;> omega
  · simp only [hc, if_false]
    rw [dictInsert_length]
    split <;> omega

/-- Witness for C6: a concrete bounded table of maximum size 2 holding one
entry; storing a fresh key keeps it within the bound and the new key reads
back the stored value. -/
theorem transTable_store_bounded_witness :
    2 ≤ (TranspositionTable.mk [((0, 0), 5)] 2 : TranspositionTable Nat Nat).max_size ∧
    ((TranspositionTable.mk [((0, 0), 5)] 2 : TranspositionTable Nat Nat).table).length ≤ 2 ∧
    ((TranspositionTable.mk [((0, 0), 5)] 2 : TranspositionTable Nat Nat).store 1 0 7).table.length ≤ 2 ∧
    dictGet ((TranspositionTable.mk [((0, 0), 5)] 2 : TranspositionTable Nat Nat).store 1 0 7).table (1, 0) = some 7 := by
  refine ⟨by decide, by decide, ?_⟩
  have h := transTable_store_bounded (TranspositionTable.mk [((0, 0), 5)] 2 : TranspositionTable Nat Nat)
    1 0 7 (by decide) (by decide)
  exact h

theorem prophetTableStoreAll_length {K V : Type} [DecidableEq K] (v : V) :
    ∀ (ks : List K) (t : List (K × V)), ks.Nodup →
      (∀ k ∈ ks, ∀ p ∈ t, p.1 ≠ k) →
      (prophetTableStoreAll t ks v).length = t.length + ks.length := by
  intro ks
  induction ks with
  | nil => intro t _ _; simp [prophetTableStoreAll]
  | cons k ks ih =>
    intro t hnd hfresh
    have hany : t.any (fun p => p.1 = k) = false := by
      simp only [List.any_eq_false, decide_eq_true_eq]
      intro p hp
      exact hfresh k (List.mem_cons_self _ _) p hp
    have hstep : prophetTableStoreAll t (k :: ks) v =
        prophetTableStoreAll (t ++ [(k, v)]) ks v := by
      simp [prophetTableStoreAll, prophetTableStore, dictInsert, hany]
    rw [hstep, ih (t ++ [(k, v)]) hnd.of_cons]
    · simp only [List.length_append, List.length_cons, List.length_nil]
      omega
    · intro k' hk' p hp
      rcases List.mem_append.1 hp with hp | hp
      · exact hfresh k' (List.mem_cons_of_mem _ hk') p hp
      · have hpk : p = (k, v) := List.mem_singleton.1 hp
        subst hpk
        intro hpk
        have hkk : k = k' := hpk
        subst hkk
        exact (List.nodup_cons.1 hnd).1 hk'

/-- C6 counterexample: the game-long transposition table of
`ai_prophet.py` is a plain dict with no eviction at all.  Storing 100001
distinct keys into it leaves 100001 entries — more than the 100000-entry
maximum that the bounded `TranspositionTable` class is configured with, and
indeed more than any fixed bound. -/
theorem prophetTableStoreAll_range_length :
    (prophetTableStoreAll ([] : List (Nat × Nat)) (List.range 100001) 0).length =
      ([] : List (Nat × Nat)).length + (List.range 100001).length :=
  prophetTableStoreAll_length 0 _ _ (List.nodup_range _) (by intro k _ p hp; simp at hp)

theorem prophet_table_unbounded :
    100000 <
      (prophetTableStoreAll ([] : List (Nat × Nat)) (List.range 100001) 0).length := by
  rw [prophetTableStoreAll_range_length, List.length_nil, List.length_range]
  omega

theorem reprSquare_injective : Function.Injective reprSquare := by
  intro a b h
  revert h
  revert a b
  decide

theorem reprBoard_injective : Function.Injective reprBoard :=
  List.map_injective_iff.2 (List.map_injective_iff.2 reprSquare_injective)

/-- C9 (amended): the full position key `_board_key` — the key used for
repetition counting in all three engines that carry the rule, and the
prophet's transposition-cache key — is a pure function of exactly the
board layout, the side to move, the four castling flags and the
en-passant target, and two positions receive the same `_board_key` only
if all of these components are equal.  The transposition-cache keys of
the fortress (`(str(gs.board), gs.whiteToMove)`) and of the gambler
(`str(gs.board) + str(gs.whiteToMove)`), by contrast, are pure functions
of exactly the board layout and the side to move alone, so they identify
positions that differ only in castling rights or in the en-passant
target (`cache_key_ignores_castling_enpassant`). -/
theorem position_keys_exact_components :
    (∀ gs gs' : GS,
      gs.board = gs'.board →
      gs.whiteToMove = gs'.whiteToMove →
      gs.whiteCastleKingside = gs'.whiteCastleKingside →
      gs.whiteCastleQueenside = gs'.whiteCastleQueenside →
      gs.blackCastleKingside = gs'.blackCastleKingside →
      gs.blackCastleQueenside = gs'.blackCastleQueenside →
      gs.enpasantPossible = gs'.enpasantPossible →
      board_key gs = board_key gs') ∧
    (∀ gs gs' : GS,
      board_key gs = board_key gs' →
      gs.board = gs'.board ∧
      gs.whiteToMove = gs'.whiteToMove ∧
      gs.whiteCastleKingside = gs'.whiteCastleKingside ∧
      gs.whiteCastleQueenside = gs'.whiteCastleQueenside ∧
      gs.blackCastleKingside = gs'.blackCastleKingside ∧
      gs.blackCastleQueenside = gs'.blackCastleQueenside ∧
      gs.enpasantPossible = gs'.enpasantPossible) ∧
    (∀ gs gs' : GS,
      gs.board = gs'.board →
      gs.whiteToMove = gs'.whiteToMove →
      Fortress.fboardKey gs = Fortress.fboardKey gs' ∧
      Gambler.boardKey gs = Gambler.boardKey gs') ∧
    (∀ gs gs' : GS,
      Fortress.fboardKey gs = Fortress.fboardKey gs' →
      gs.board = gs'.board ∧ gs.whiteToMove = gs'.whiteToMove) ∧
    (∀ gs gs' : GS,
      Gambler.boardKey gs = Gambler.boardKey gs' →
      gs.board = gs'.board ∧ gs.whiteToMove = gs'.whiteToMove) := by
  refine ⟨?_, ?_, ?_, ?_, ?_⟩
  · intro gs gs' h1 h2 h3 h4 h5 h6 h7
    simp [board_key, h1, h2, h3, h4, h5, h6, h7]
  · intro gs gs' h
    simp only [board_key, Prod.mk.injEq] at h
    obtain ⟨hb, h2, h3, h4, h5, h6, h7⟩ := h
    exact ⟨reprBoard_injective hb, h2, h3, h4, h5, h6, h7⟩
  · intro gs gs' h1 h2
    constructor <;> simp [Fortress.fboardKey, Gambler.boardKey, h1, h2]
  · intro gs gs' h
    simp only [Fortress.fboardKey, Prod.mk.injEq] at h
    exact ⟨reprBoard_injective h.1, h.2⟩
  · intro gs gs' h
    simp only [Gambler.boardKey, Prod.mk.injEq] at h
    exact ⟨reprBoard_injective h.1, h.2⟩

/-- Witness for the amended C9 at concrete positions: two positions that
agree on all of `_board_key`'s components receive equal keys, two that
differ only in the side to move receive different keys, and two that agree
on board and side to move receive equal fortress and gambler cache keys. -/
theorem position_keys_exact_components_witness :
    board_key ⟨[[some (.w, .K)]], true, false, false, true, true, false, false, none, false⟩ =
      board_key ⟨[[some (.w, .K)]], true, true, false, true, true, false, false, none, true⟩ ∧
    ¬ board_key ⟨[[some (.w, .K)]], true, false, false, true, true, false, false, none, false⟩ =
      board_key ⟨[[some (.w, .K)]], false, false, false, true, true, false, false, none, false⟩ ∧
    Fortress.fboardKey ⟨[[some (.w, .K)]], true, false, false, true, true, false, false, none, false⟩ =
      Fortress.fboardKey ⟨[[some (.w, .K)]], true, true, true, false, false, true, true, some (2, 4), true⟩ := by
  refine ⟨?_, ?_, ?_⟩
  · exact position_keys_exact_components.1 _ _ rfl rfl rfl rfl rfl rfl rfl
  · intro h
    have := (position_keys_exact_components.2.1 _ _ h).2.1
    simp at this
  · exact (position_keys_exact_components.2.2.1 _ _ rfl rfl).1

/-- C9 counterexample: the key used for transposition-table caching in
`ai_fortress.py` (line 175, `(str(gs.board), gs.whiteToMove)`) and in
`ai_gambler.py` (line 154, `str(gs.board) + str(gs.whiteToMove)`) does not
distinguish positions differing in a castling flag or in the en-passant
target: two concrete positions differing only in `whiteCastleKingside`,
and two differing only in `enpasantPossible`, receive identical fortress
and gambler cache keys — while the full `_board_key` separates them. -/
theorem cache_key_ignores_castling_enpassant :
    (GS.mk [[some (.w, .K)]] true false false true true false false none false).whiteCastleKingside ≠
      (GS.mk [[some (.w, .K)]] true false false false true false false none false).whiteCastleKingside ∧
    Fortress.fboardKey (GS.mk [[some (.w, .K)]] true false false true true false false none false) =
      Fortress.fboardKey (GS.mk [[some (.w, .K)]] true false false false true false false none false) ∧
    Gambler.boardKey (GS.mk [[some (.w, .K)]] true false false true true false false none false) =
      Gambler.boardKey (GS.mk [[some (.w, .K)]] true false false false true false false none false) ∧
    (GS.mk [[some (.w, .K)]] true false false true true false false none false).enpasantPossible ≠
      (GS.mk [[some (.w, .K)]] true false false true true false false (some (2, 4)) false).enpasantPossible ∧
    Fortress.fboardKey (GS.mk [[some (.w, .K)]] true false false true true false false none false) =
      Fortress.fboardKey (GS.mk [[some (.w, .K)]] true false false true true false false (some (2, 4)) false) ∧
    Gambler.boardKey (GS.mk [[some (.w, .K)]] true false false true true false false none false) =
      Gambler.boardKey (GS.mk [[some (.w, .K)]] true false false true true false false (some (2, 4)) false) ∧
    board_key (GS.mk [[some (.w, .K)]] true false false true true false false none false) ≠
      board_key (GS.mk [[some (.w, .K)]] true false false false true false false none false) := by
  refine ⟨by decide, rfl, rfl, by decide, rfl, rfl, ?_⟩
  intro h
  simpa [board_key] using congrArg (fun k => k.2.2.1) h

/-- C5: `scoreBoard` is read-only — the position (in particular its
`checkmate`/`stalemate` flags) passes through every call unchanged — and on
terminal positions it returns the terminal constants: the signed mate
constant oriented against the side to move (`-CHECKMATE` when white is to
move, `+CHECKMATE` otherwise) when `checkmate` is set, and `0` when
`stalemate` is set (the source checks `checkmate` first, so the stalemate
branch is reached with `checkmate` clear).  Holds for both the prophet's
and the fortress's evaluator. -/
theorem scoreBoard_readonly_terminal :
    (∀ gs : GS, (Prophet.scoreBoardRun gs).2 = gs ∧ (Fortress.scoreBoardRun gs).2 = gs) ∧
    (∀ gs : GS, gs.checkmate = true →
      Prophet.scoreBoard gs = (if gs.whiteToMove then -CHECKMATE else CHECKMATE) ∧
      Fortress.scoreBoard gs = (if gs.whiteToMove then -CHECKMATE else CHECKMATE)) ∧
    (∀ gs : GS, gs.checkmate = false → gs.stalemate = true →
      Prophet.scoreBoard gs = 0 ∧ Fortress.scoreBoard gs = 0) := by
  refine ⟨fun gs => ⟨rfl, rfl⟩, fun gs h => ?_, fun gs h1 h2 => ?_⟩
  · constructor <;> simp [Prophet.scoreBoard, Fortress.scoreBoard, h]
  · constructor <;> simp [Prophet.scoreBoard, Fortress.scoreBoard, h1, h2, STALEMATE]

/-- Witness for C5 at a concrete checkmated position with white to move:
both evaluators return `-CHECKMATE = -1000` and leave the position intact;
and at a concrete stalemated position both return `0`. -/
theorem scoreBoard_readonly_terminal_witness :
    (GS.mk [[some (.w, .K)]] true true false true true true true none true).checkmate = true ∧
    Prophet.scoreBoard (GS.mk [[some (.w, .K)]] true true false true true true true none true) = -CHECKMATE ∧
    Fortress.scoreBoard (GS.mk [[some (.w, .K)]] true true false true true true true none true) = -CHECKMATE ∧
    (Prophet.scoreBoardRun (GS.mk [[some (.w, .K)]] true true false true true true true none true)).2 =
      GS.mk [[some (.w, .K)]] true true false true true true true none true ∧
    Prophet.scoreBoard (GS.mk [[some (.w, .K)]] true false true true true true true none false) = 0 := by
  refine ⟨rfl, ?_, ?_, ?_, ?_⟩
  · have h := (scoreBoard_readonly_terminal.2.1
      (GS.mk [[some (.w, .K)]] true true false true true true true none true) rfl).1
    simpa using h
  · have h := (scoreBoard_readonly_terminal.2.1
      (GS.mk [[some (.w, .K)]] true true false true true true true none true) rfl).2
    simpa using h
  · exact (scoreBoard_readonly_terminal.1
      (GS.mk [[some (.w, .K)]] true true false true true true true none true)).1
  · exact (scoreBoard_readonly_terminal.2.2
      (GS.mk [[some (.w, .K)]] true false true true true true true none false) rfl rfl).1

theorem ifLtMax (a b : Rat) : (if a < b then b else a) = max a b := by
  rcases lt_or_le a b with h | h
  · simp [h, max_eq_right h.le]
  · simp [not_lt.2 h, max_eq_left h]

theorem abLoopF_cons {P M K : Type} (G : Game P M K)
    (recA : P → List M → Rat → Rat → Rat → Rat) (pos : P) (m : M) (ms : List M)
    (maxS alpha beta turn : Rat) :
    abLoopF G recA pos (m :: ms) maxS alpha beta turn =
      (fun s =>
        (fun m1 a1 => if beta ≤ a1 then m1 else abLoopF G recA pos ms m1 a1 beta turn)
          (if maxS < s then s else maxS)
          (if alpha < (if maxS < s then s else maxS) then (if maxS < s then s else maxS) else alpha))
        (-(recA (G.apply pos m) (G.moves (G.apply pos m)) (-beta) (-alpha) (-turn))) := rfl

theorem abLoopF_ge_init {P M K : Type} (G : Game P M K)
    (recA : P → List M → Rat → Rat → Rat → Rat) (pos : P) :
    ∀ (l : List M) (maxS alpha beta turn : Rat),
      maxS ≤ abLoopF G recA pos l maxS alpha beta turn := by
  intro l
  induction l with
  | nil => intro maxS alpha beta turn; simp [abLoopF]
  | cons m ms ih =>
    intro maxS alpha beta turn
    rw [abLoopF_cons]
    generalize -(recA (G.apply pos m) (G.moves (G.apply pos m)) (-beta) (-alpha) (-turn)) = s
    dsimp only
    have hm1 : maxS ≤ (if maxS < s then s else maxS) := by
      split
      · exact le_of_lt (by assumption)
      · exact le_refl _
    generalize hg : (if maxS < s then s else maxS) = m1 at hm1 ⊢
    split_ifs <;> first
      | exact hm1
      | exact le_trans hm1 (ih _ _ _ _)

theorem le_foldl_max {M : Type} (f : M → Rat) :
    ∀ (l : List M) (a : Rat), a ≤ l.foldl (fun acc m => max acc (f m)) a := by
  intro l
  induction l with
  | nil => intro a; simp
  | cons m ms ih =>
    intro a
    exact le_trans (le_max_left a (f m)) (ih (max a (f m)))

theorem foldl_max_lt {M : Type} (f : M → Rat) (C : Rat) :
    ∀ (l : List M) (a : Rat), a < C → (∀ m ∈ l, f m < C) →
      l.foldl (fun acc m => max acc (f m)) a < C := by
  intro l
  induction l with
  | nil => intro a ha _; simpa using ha
  | cons m ms ih =>
    intro a ha hl
    refine ih (max a (f m)) ?_ ?_
    · exact max_lt ha (hl m (List.mem_cons_self _ _))
    · intro x hx; exact hl x (List.mem_cons_of_mem _ hx)

theorem foldl_max_extract {M : Type} (f : M → Rat) :
    ∀ (l : List M) (a b : Rat),
      l.foldl (fun acc m => max acc (f m)) (max a b) =
        max b (l.foldl (fun acc m => max acc (f m)) a) := by
  intro l
  induction l with
  | nil => intro a b; simp [max_comm]
  | cons m ms ih =>
    intro a b
    simp only [List.foldl_cons]
    rw [show max (max a b) (f m) = max (max a (f m)) b by
      rw [max_assoc, max_comm b (f m), ← max_assoc], ih]

theorem negClamp (a b x : Rat) :
    -(min (-a) (max (-b) x)) = max a (min b (-x)) := by
  simp only [min_def, max_def]
  split_ifs <;> linarith

theorem histOf_mark {K : Type} [DecidableEq K] (seen : List K) (key : K)
    (h : key ∉ seen) :
    (fun k => if k = key then histOf seen k + 1 else histOf seen k) =
      histOf (key :: seen) := by
  funext k
  by_cases hk : k = key
  · subst hk
    simp [histOf, h]
  · simp [histOf, hk, List.mem_cons]

theorem histOf_unmark {K : Type} [DecidableEq K] (seen : List K) (key : K)
    (h : key ∉ seen) :
    (fun k => if k = key then histOf (key :: seen) k - 1 else histOf (key :: seen) k) =
      histOf seen := by
  funext k
  by_cases hk : k = key
  · subst hk
    simp [histOf, h]
  · simp [histOf, hk, List.mem_cons]

theorem tLoopF_cons {P M K : Type} (G : Game P M K)
    (rec : P → List M → Rat → Rat → Rat → (K → Nat) → Option M →
      Rat × (K → Nat) × Option M)
    (DC dcur : Nat) (pos : P) (m : M) (ms : List M)
    (maxS alpha beta turn : Rat) (hist : K → Nat) (nmv : Option M) :
    Tactician.tLoopF G rec DC dcur pos (m :: ms) maxS alpha beta turn hist nmv =
      (fun r =>
        (fun maxScore1 nmv1 =>
          (fun alpha1 =>
            if beta ≤ alpha1 then (maxScore1, r.2.1, nmv1)
            else Tactician.tLoopF G rec DC dcur pos ms maxScore1 alpha1 beta turn r.2.1 nmv1)
          (if alpha < maxScore1 then maxScore1 else alpha))
        (if maxS < -r.1 then -r.1 else maxS)
        (if maxS < -r.1 ∧ dcur = DC then some m else r.2.2))
      (rec (G.apply pos m) (G.moves (G.apply pos m)) (-beta) (-alpha) (-turn) hist nmv) := rfl

theorem tLoopF_eq_abLoopF {P M K : Type} [DecidableEq K] (G : Game P M K)
    (DC : Nat) (d : Nat)
    (IH : ∀ (pos : P) (seen : List K) (alpha beta turn : Rat) (nmv : Option M),
      noRep G d pos seen = true →
      (Tactician.findMoveNegaMaxAlphaBeta G (fun _ => 0) DC d pos (G.moves pos)
          alpha beta turn (histOf seen) nmv).1 =
        alphabeta G d pos (G.moves pos) alpha beta turn ∧
      (Tactician.findMoveNegaMaxAlphaBeta G (fun _ => 0) DC d pos (G.moves pos)
          alpha beta turn (histOf seen) nmv).2.1 = histOf seen) :
    ∀ (pos : P) (seen : List K) (l : List M) (maxS alpha beta turn : Rat) (nmv : Option M),
      (∀ m ∈ l, noRep G d (G.apply pos m) (G.key pos :: seen) = true) →
      (Tactician.tLoopF G (Tactician.findMoveNegaMaxAlphaBeta G (fun _ => 0) DC d)
          DC (d + 1) pos l maxS alpha beta turn (histOf (G.key pos :: seen)) nmv).1 =
        abLoopF G (alphabeta G d) pos l maxS alpha beta turn ∧
      (Tactician.tLoopF G (Tactician.findMoveNegaMaxAlphaBeta G (fun _ => 0) DC d)
          DC (d + 1) pos l maxS alpha beta turn (histOf (G.key pos :: seen)) nmv).2.1 =
        histOf (G.key pos :: seen) := by
  intro pos seen l
  induction l with
  | nil =>
    intro maxS alpha beta turn nmv _
    exact ⟨rfl, rfl⟩
  | cons m ms ih =>
    intro maxS alpha beta turn nmv hl
    obtain ⟨h1, h2⟩ := IH (G.apply pos m) (G.key pos :: seen) (-beta) (-alpha) (-turn) nmv
      (hl m (List.mem_cons_self _ _))
    rw [tLoopF_cons, abLoopF_cons]
    dsimp only
    rw [h1, h2]
    by_cases hbr : beta ≤
        (if alpha <
            (if maxS < -(alphabeta G d (G.apply pos m) (G.moves (G.apply pos m)) (-beta) (-alpha) (-turn))
              then -(alphabeta G d (G.apply pos m) (G.moves (G.apply pos m)) (-beta) (-alpha) (-turn))
              else maxS)
          then (if maxS < -(alphabeta G d (G.apply pos m) (G.moves (G.apply pos m)) (-beta) (-alpha) (-turn))
              then -(alphabeta G d (G.apply pos m) (G.moves (G.apply pos m)) (-beta) (-alpha) (-turn))
              else maxS)
          else alpha)
    · rw [if_pos hbr, if_pos hbr]
      exact ⟨rfl, rfl⟩
    · rw [if_neg hbr, if_neg hbr]
      exact ih _ _ _ _ _ (fun x hx => hl x (List.mem_cons_of_mem _ hx))

theorem tNegamax_eq_alphabeta {P M K : Type} [DecidableEq K] (G : Game P M K)
    (DC : Nat) :
    ∀ (d : Nat) (pos : P) (seen : List K) (alpha beta turn : Rat) (nmv : Option M),
      noRep G d pos seen = true →
      (Tactician.findMoveNegaMaxAlphaBeta G (fun _ => 0) DC d pos (G.moves pos)
          alpha beta turn (histOf seen) nmv).1 =
        alphabeta G d pos (G.moves pos) alpha beta turn ∧
      (Tactician.findMoveNegaMaxAlphaBeta G (fun _ => 0) DC d pos (G.moves pos)
          alpha beta turn (histOf seen) nmv).2.1 = histOf seen := by
  intro d
  induction d with
  | zero =>
    intro pos seen alpha beta turn nmv hnr
    have hk : G.key pos ∉ seen := by
      simpa [noRep] using hnr
    constructor <;>
      simp [Tactician.findMoveNegaMaxAlphaBeta, Tactician.tAfterRep, histOf, hk, alphabeta]
  | succ d ihd =>
    intro pos seen alpha beta turn nmv hnr
    have hk : G.key pos ∉ seen := by
      have := hnr
      simp only [noRep, Bool.and_eq_true, Bool.not_eq_true'] at this
      simpa using this.1
    have hall : ∀ m ∈ G.moves pos, noRep G d (G.apply pos m) (G.key pos :: seen) = true := by
      have := hnr
      simp only [noRep, Bool.and_eq_true, List.all_eq_true] at this
      exact this.2
    have hcond : ¬ 2 ≤ (fun _ : K => 0) (G.key pos) + histOf seen (G.key pos) := by
      simp [histOf, hk]
    obtain ⟨l1, l2⟩ := tLoopF_eq_abLoopF G DC d ihd pos seen (G.moves pos)
      (-CHECKMATE) alpha beta turn nmv hall
    simp only [Tactician.findMoveNegaMaxAlphaBeta]
    rw [if_neg hcond]
    simp only [Tactician.tAfterRep, Nat.succ_ne_zero, if_neg, reduceIte]
    rw [histOf_mark _ _ hk]
    constructor
    · rw [l1]
      rfl
    · rw [l2]
      exact histOf_unmark _ _ hk

theorem abLoopF_clamp {P M K : Type} (G : Game P M K) (d : Nat)
    (IH : ∀ (pos : P) (alpha beta turn : Rat),
      -CHECKMATE ≤ alpha → alpha < beta → beta ≤ CHECKMATE →
      min beta (max alpha (alphabeta G d pos (G.moves pos) alpha beta turn)) =
        min beta (max alpha (minimaxFull G d pos turn))) :
    ∀ (pos : P) (l : List M) (maxS alpha beta turn : Rat),
      maxS ≤ alpha → -CHECKMATE ≤ alpha → alpha < beta → beta ≤ CHECKMATE →
      min beta (max alpha (abLoopF G (alphabeta G d) pos l maxS alpha beta turn)) =
        min beta (max alpha (l.foldl
          (fun acc m => max acc (-(minimaxFull G d (G.apply pos m) (-turn)))) maxS)) := by
  intro pos l
  induction l with
  | nil =>
    intro maxS alpha beta turn _ _ _ _
    rfl
  | cons m ms ihl =>
    intro maxS alpha beta turn h0 h1 h2 h3
    rw [abLoopF_cons]
    simp only [List.foldl_cons]
    set s := -(alphabeta G d (G.apply pos m) (G.moves (G.apply pos m)) (-beta) (-alpha) (-turn)) with hs_def
    set strue := -(minimaxFull G d (G.apply pos m) (-turn)) with hstrue_def
    have hchild := IH (G.apply pos m) (-beta) (-alpha) (-turn)
      (by simpa using neg_le_neg h3) (by simpa using neg_lt_neg h2) (by simpa using neg_le_neg h1)
    have hdag : max alpha (min beta s) = max alpha (min beta strue) := by
      have hneg := congrArg Neg.neg hchild
      rw [negClamp, negClamp] at hneg
      exact hneg
    rw [ifLtMax maxS s, ifLtMax alpha (max maxS s)]
    have halpha1 : max alpha (max maxS s) = max alpha s := by
      rw [← max_assoc, max_eq_left h0]
    rw [halpha1]
    by_cases hbr : beta ≤ max alpha s
    · rw [if_pos hbr]
      have hsb : beta ≤ s := by
        rcases le_or_lt beta s with h | h
        · exact h
        · exact absurd (max_lt h2 h) (not_lt.2 hbr)
      have h5 : max alpha (min beta strue) = beta := by
        rw [← hdag, min_eq_left hsb]
        exact max_eq_right h2.le
      have h6 : beta ≤ strue := by
        by_contra hcon
        push_neg at hcon
        rw [min_eq_right hcon.le] at h5
        exact absurd h5 (ne_of_lt (max_lt h2 hcon))
      have hL : beta ≤ max alpha (max maxS s) :=
        le_trans hsb (le_trans (le_max_right maxS s) (le_max_right alpha _))
      have hR : beta ≤ max alpha
          (ms.foldl (fun acc m' => max acc (-(minimaxFull G d (G.apply pos m') (-turn))))
            (max maxS strue)) :=
        le_trans h6 (le_trans (le_max_right maxS strue)
          (le_trans (le_foldl_max _ ms _) (le_max_right alpha _)))
      rw [min_eq_left hL, min_eq_left hR]
    · rw [if_neg hbr]
      have hlt : max alpha s < beta := not_le.1 hbr
      have hs_lt : s < beta := lt_of_le_of_lt (le_max_right alpha s) hlt
      have hs_eq : max alpha s = max alpha strue := by
        by_cases hst : strue < beta
        · rw [← min_eq_right hst.le, ← hdag, min_eq_right hs_lt.le]
        · push_neg at hst
          exfalso
          have : max alpha s = beta := by
            rw [← max_eq_right h2.le, ← min_eq_left hst, ← hdag, min_eq_right hs_lt.le]
          exact absurd this (ne_of_lt hlt)
      have hrec := ihl (max maxS s) (max alpha s) beta turn
        (max_le_max h0 le_rfl)
        (le_trans h1 (le_max_left alpha s)) hlt h3
      have hge := abLoopF_ge_init G (alphabeta G d) pos ms (max maxS s) (max alpha s) beta turn
      have hstep1 : max (max alpha s)
          (abLoopF G (alphabeta G d) pos ms (max maxS s) (max alpha s) beta turn) =
          max alpha (abLoopF G (alphabeta G d) pos ms (max maxS s) (max alpha s) beta turn) := by
        rw [max_assoc, max_eq_right (le_trans (le_max_right maxS s) hge)]
      have hfold := le_foldl_max
        (fun m' => -(minimaxFull G d (G.apply pos m') (-turn))) ms (max maxS s)
      have hstep2 : max (max alpha s)
          (ms.foldl (fun acc m' => max acc (-(minimaxFull G d (G.apply pos m') (-turn))))
            (max maxS s)) =
          max alpha
          (ms.foldl (fun acc m' => max acc (-(minimaxFull G d (G.apply pos m') (-turn))))
            (max maxS s)) := by
        rw [max_assoc, max_eq_right (le_trans (le_max_right maxS s) hfold)]
      rw [hstep1, hstep2] at hrec
      rw [hrec, foldl_max_extract, foldl_max_extract]
      rw [← max_assoc, ← max_assoc, hs_eq]

theorem alphabeta_clamp {P M K : Type} (G : Game P M K) :
    ∀ (d : Nat) (pos : P) (alpha beta turn : Rat),
      -CHECKMATE ≤ alpha → alpha < beta → beta ≤ CHECKMATE →
      min beta (max alpha (alphabeta G d pos (G.moves pos) alpha beta turn)) =
        min beta (max alpha (minimaxFull G d pos turn)) := by
  intro d
  induction d with
  | zero =>
    intro pos alpha beta turn _ _ _
    rfl
  | succ d ihd =>
    intro pos alpha beta turn h1 h2 h3
    simp only [alphabeta, minimaxFull]
    exact abLoopF_clamp G d ihd pos (G.moves pos) (-CHECKMATE) alpha beta turn h1 h1 h2 h3

theorem minimaxFull_bounds {P M K : Type} (G : Game P M K)
    (hm : ∀ p, G.moves p ≠ [])
    (he : ∀ p, -CHECKMATE < G.eval p ∧ G.eval p < CHECKMATE) :
    ∀ (d : Nat) (pos : P) (turn : Rat), turn = 1 ∨ turn = -1 →
      -CHECKMATE < minimaxFull G d pos turn ∧ minimaxFull G d pos turn < CHECKMATE := by
  intro d
  induction d with
  | zero =>
    intro pos turn ht
    rcases ht with h | h <;> subst h <;>
      constructor <;> simp [minimaxFull] <;> [exact (he pos).1; exact (he pos).2;
        linarith [(he pos).2]; linarith [(he pos).1]]
  | succ d ihd =>
    intro pos turn ht
    have ht' : -turn = 1 ∨ -turn = -1 := by
      rcases ht with h | h <;> subst h <;> simp
    constructor
    · obtain ⟨m, ms, hcons⟩ := List.exists_cons_of_ne_nil (hm pos)
      have hchild := ihd (G.apply pos m) (-turn) ht'
      have hfirst : -(minimaxFull G d (G.apply pos m) (-turn)) ≤
          (G.moves pos).foldl
            (fun acc m' => max acc (-(minimaxFull G d (G.apply pos m') (-turn))))
            (-CHECKMATE) := by
        rw [hcons]
        simp only [List.foldl_cons]
        exact le_trans (le_max_right _ _) (le_foldl_max _ ms _)
      have : -CHECKMATE < -(minimaxFull G d (G.apply pos m) (-turn)) := by
        linarith [hchild.2]
      calc -CHECKMATE < -(minimaxFull G d (G.apply pos m) (-turn)) := this
        _ ≤ _ := hfirst
    · show (G.moves pos).foldl _ (-CHECKMATE) < CHECKMATE
      refine foldl_max_lt _ CHECKMATE (G.moves pos) (-CHECKMATE) ?_ ?_
      · simp only [CHECKMATE]
        norm_num
      · intro m _
        have hchild := ihd (G.apply pos m) (-turn) ht'
        linarith [hchild.1]

/-- C3 (amended): for the tactician's search (which has no transposition
table), when the game history is empty and no position key repeats along
any search path within the depth (`noRep`), every position has at least one
legal move, and all static evaluations lie strictly between `-CHECKMATE`
and `CHECKMATE`, the root score of the alpha-beta search run at the full
window equals the full-window no-pruning minimax value: pruning alone never
changes the score.  The repetition machinery, by contrast, does change it —
see `pruned_search_differs_from_minimax`. -/
theorem tactician_alphabeta_equals_minimax {P M K : Type} [DecidableEq K]
    (G : Game P M K)
    (hm : ∀ p, G.moves p ≠ [])
    (he : ∀ p, -CHECKMATE < G.eval p ∧ G.eval p < CHECKMATE)
    (DC d : Nat) (pos : P) (turn : Rat) (ht : turn = 1 ∨ turn = -1)
    (nmv : Option M) (hnr : noRep G d pos [] = true) :
    (Tactician.findMoveNegaMaxAlphaBeta G (fun _ => 0) DC d pos (G.moves pos)
      (-CHECKMATE) CHECKMATE turn (fun _ => 0) nmv).1 = minimaxFull G d pos turn := by
  have hC : (0 : Rat) < CHECKMATE := by simp only [CHECKMATE]; norm_num
  have hhist : (fun _ : K => (0 : Nat)) = histOf ([] : List K) := by
    funext k
    simp [histOf]
  have herase := (tNegamax_eq_alphabeta G DC d pos [] (-CHECKMATE) CHECKMATE turn nmv hnr).1
  rw [← hhist] at herase
  rw [herase]
  have hclamp := alphabeta_clamp G d pos (-CHECKMATE) CHECKMATE turn
    le_rfl (by linarith) le_rfl
  have hb := minimaxFull_bounds G hm he d pos turn ht
  have hmm : min CHECKMATE (max (-CHECKMATE) (minimaxFull G d pos turn)) =
      minimaxFull G d pos turn := by
    rw [max_eq_right hb.1.le, min_eq_right hb.2.le]
  rw [hmm] at hclamp
  set x := alphabeta G d pos (G.moves pos) (-CHECKMATE) CHECKMATE turn with hx
  rcases le_or_lt x (-CHECKMATE) with hle | hgt
  · exfalso
    rw [max_eq_left hle, min_eq_right (by linarith : -CHECKMATE ≤ CHECKMATE)] at hclamp
    linarith [hb.1]
  · rcases le_or_lt CHECKMATE x with hge | hlt
    · exfalso
      rw [max_eq_right (by linarith : -CHECKMATE ≤ x), min_eq_left hge] at hclamp
      linarith [hb.2]
    · rw [max_eq_right hgt.le, min_eq_right hlt.le] at hclamp
      exact hclamp

/-- Witness for the amended C3 on the concrete acyclic `chainGame` at depth
2: the engine's root score (full window, empty histories) equals the
no-pruning minimax value. -/
theorem tactician_alphabeta_equals_minimax_witness :
    noRep chainGame 2 0 [] = true ∧
    (Tactician.findMoveNegaMaxAlphaBeta chainGame (fun _ => 0) 3 2 0 (chainGame.moves 0)
      (-CHECKMATE) CHECKMATE 1 (fun _ => 0) none).1 = minimaxFull chainGame 2 0 1 := by
  constructor
  · decide
  · exact tactician_alphabeta_equals_minimax chainGame
      (fun p => by simp [chainGame])
      (fun p => by norm_num [chainGame, CHECKMATE])
      3 2 0 1 (Or.inl rfl) none (by decide)

/-- C3 counterexample: on the two-position shuttling `cycleGame` (each
side's only move returns to the previous position), with an empty game
history, an empty search-path history and the full window, the tactician's
depth-5 root search returns 0 — its repetition rule fires on the third
visit to a key inside the search path — while the full-window no-pruning
minimax value of the same position, depth and evaluation is 3.  The search
with its machinery therefore does not always equal plain minimax. -/
theorem pruned_search_differs_from_minimax :
    (Tactician.findMoveNegaMaxAlphaBeta cycleGame (fun _ => 0) 6 5 false
        (cycleGame.moves false) (-CHECKMATE) CHECKMATE 1 (fun _ => 0) none).1 = 0 ∧
    minimaxFull cycleGame 5 false 1 = 3 ∧
    (Tactician.findMoveNegaMaxAlphaBeta cycleGame (fun _ => 0) 6 5 false
        (cycleGame.moves false) (-CHECKMATE) CHECKMATE 1 (fun _ => 0) none).1 ≠
      minimaxFull cycleGame 5 false 1 := by
  have hengine : (Tactician.findMoveNegaMaxAlphaBeta cycleGame (fun _ => 0) 6 5 false
      (cycleGame.moves false) (-CHECKMATE) CHECKMATE 1 (fun _ => 0) none).1 = 0 := by
    norm_num [Tactician.findMoveNegaMaxAlphaBeta, Tactician.tAfterRep, Tactician.tLoopF,
      Tactician.tDummy, cycleGame, CHECKMATE]
  have hmm : minimaxFull cycleGame 5 false 1 = 3 := by
    norm_num [minimaxFull, cycleGame, CHECKMATE]
  refine ⟨hengine, hmm, ?_⟩
  rw [hengine, hmm]
  norm_num

theorem prophet_negamax_eq {P K : Type} [DecidableEq K] (G : Game P MoveP K)
    (gh : K → Nat) (qf d : Nat) (pos : P) (moves : List MoveP)
    (alpha beta turn : Rat) (bm : Option MoveP) (st : Prophet.PState K) :
    Prophet.negamax G gh qf d pos moves alpha beta turn bm st =
      if 2 ≤ gh (G.key pos) + st.searchHist (G.key pos) then (0, st)
      else Prophet.pAfterRep G qf (Prophet.pPrev G gh qf d) d pos moves alpha beta turn bm st := by
  cases d <;> rfl

theorem gambler_negamax_eq {P K BK : Type} [DecidableEq K] [DecidableEq BK]
    (G : Game P MoveP K) (bkey : P → BK) (gh : K → Nat) (DC d : Nat) (pos : P)
    (vm : List MoveP) (alpha beta turn : Rat) (st : Gambler.GState K BK) :
    Gambler.findMoveNegaMaxAlphaBeta G bkey gh DC d pos vm alpha beta turn st =
      if 2 ≤ gh (G.key pos) + st.searchHist (G.key pos) then (0, st)
      else Gambler.gAfterRep G bkey (Gambler.gPrev G bkey gh DC d) DC d pos vm alpha beta turn st := by
  cases d <;> rfl

theorem tactician_negamax_eq {P M K : Type} [DecidableEq K] (G : Game P M K)
    (gh : K → Nat) (DC d : Nat) (pos : P) (vm : List M) (alpha beta turn : Rat)
    (hist : K → Nat) (nmv : Option M) :
    Tactician.findMoveNegaMaxAlphaBeta G gh DC d pos vm alpha beta turn hist nmv =
      if 2 ≤ gh (G.key pos) + hist (G.key pos) then (0, hist, nmv)
      else Tactician.tAfterRep G (Tactician.tPrev G gh DC d) DC d pos vm alpha beta turn hist nmv := by
  cases d <;> rfl

/-- C1: in every engine that has the repetition rule (prophet, gambler,
tactician), a negamax call on a position whose game-history count plus
search-path count is at least 2 returns the draw score 0 immediately with
every piece of state untouched — in particular before any
transposition-table lookup, evaluation or move expansion, since the result
`(0, state)` does not depend on the transposition table, the evaluation
function or the move lists at all; and with a combined count of 0 or 1 the
call instead proceeds into the rest of the body (the continuation
`pAfterRep`/`gAfterRep`/`tAfterRep`, which starts with the
transposition-table lookup where the engine has one). -/
theorem repetition_check_first :
    (∀ (P K : Type) [inst : DecidableEq K] (G : Game P MoveP K) (gh : K → Nat)
        (qf d : Nat) (pos : P) (moves : List MoveP) (alpha beta turn : Rat)
        (bm : Option MoveP) (st : Prophet.PState K),
      2 ≤ gh (G.key pos) + st.searchHist (G.key pos) →
        Prophet.negamax G gh qf d pos moves alpha beta turn bm st = (0, st)) ∧
    (∀ (P K : Type) [inst : DecidableEq K] (G : Game P MoveP K) (gh : K → Nat)
        (qf d : Nat) (pos : P) (moves : List MoveP) (alpha beta turn : Rat)
        (bm : Option MoveP) (st : Prophet.PState K),
      gh (G.key pos) + st.searchHist (G.key pos) ≤ 1 →
        Prophet.negamax G gh qf d pos moves alpha beta turn bm st =
          Prophet.pAfterRep G qf (Prophet.pPrev G gh qf d) d pos moves alpha beta turn bm st) ∧
    (∀ (P K BK : Type) [inst : DecidableEq K] [inst2 : DecidableEq BK]
        (G : Game P MoveP K) (bkey : P → BK) (gh : K → Nat) (DC d : Nat) (pos : P)
        (vm : List MoveP) (alpha beta turn : Rat) (st : Gambler.GState K BK),
      2 ≤ gh (G.key pos) + st.searchHist (G.key pos) →
        Gambler.findMoveNegaMaxAlphaBeta G bkey gh DC d pos vm alpha beta turn st = (0, st)) ∧
    (∀ (P K BK : Type) [inst : DecidableEq K] [inst2 : DecidableEq BK]
        (G : Game P MoveP K) (bkey : P → BK) (gh : K → Nat) (DC d : Nat) (pos : P)
        (vm : List MoveP) (alpha beta turn : Rat) (st : Gambler.GState K BK),
      gh (G.key pos) + st.searchHist (G.key pos) ≤ 1 →
        Gambler.findMoveNegaMaxAlphaBeta G bkey gh DC d pos vm alpha beta turn st =
          Gambler.gAfterRep G bkey (Gambler.gPrev G bkey gh DC d) DC d pos vm alpha beta turn st) ∧
    (∀ (P M K : Type) [inst : DecidableEq K] (G : Game P M K) (gh : K → Nat)
        (DC d : Nat) (pos : P) (vm : List M) (alpha beta turn : Rat)
        (hist : K → Nat) (nmv : Option M),
      2 ≤ gh (G.key pos) + hist (G.key pos) →
        Tactician.findMoveNegaMaxAlphaBeta G gh DC d pos vm alpha beta turn hist nmv =
          (0, hist, nmv)) ∧
    (∀ (P M K : Type) [inst : DecidableEq K] (G : Game P M K) (gh : K → Nat)
        (DC d : Nat) (pos : P) (vm : List M) (alpha beta turn : Rat)
        (hist : K → Nat) (nmv : Option M),
      gh (G.key pos) + hist (G.key pos) ≤ 1 →
        Tactician.findMoveNegaMaxAlphaBeta G gh DC d pos vm alpha beta turn hist nmv =
          Tactician.tAfterRep G (Tactician.tPrev G gh DC d) DC d pos vm alpha beta turn hist nmv) := by
  refine ⟨?_, ?_, ?_, ?_, ?_, ?_⟩
  · intro P K _ G gh qf d pos moves alpha beta turn bm st h
    rw [prophet_negamax_eq, if_pos h]
  · intro P K _ G gh qf d pos moves alpha beta turn bm st h
    rw [prophet_negamax_eq, if_neg (by omega)]
  · intro P K BK _ _ G bkey gh DC d pos vm alpha beta turn st h
    rw [gambler_negamax_eq, if_pos h]
  · intro P K BK _ _ G bkey gh DC d pos vm alpha beta turn st h
    rw [gambler_negamax_eq, if_neg (by omega)]
  · intro P M K _ G gh DC d pos vm alpha beta turn hist nmv h
    rw [tactician_negamax_eq, if_pos h]
  · intro P M K _ G gh DC d pos vm alpha beta turn hist nmv h
    rw [tactician_negamax_eq, if_neg (by omega)]

/-- Witness for C1 at concrete inputs: with a game-history count of 2 on
the current key, the prophet's negamax returns `(0, state)` unchanged, and
with a count of 1 it equals its post-repetition continuation; likewise a
gambler call with count 2 returns `(0, state)`. -/
theorem repetition_check_first_witness :
    2 ≤ (fun _ : Unit => 2) (unitGame.key ()) + pStateEmpty.searchHist (unitGame.key ()) ∧
    Prophet.negamax unitGame (fun _ => 2) 1 3 () [] 0 1 1 none pStateEmpty = (0, pStateEmpty) ∧
    (fun _ : Unit => 1) (unitGame.key ()) + pStateEmpty.searchHist (unitGame.key ()) ≤ 1 ∧
    Prophet.negamax unitGame (fun _ => 1) 1 3 () [] 0 1 1 none pStateEmpty =
      Prophet.pAfterRep unitGame 1 (Prophet.pPrev unitGame (fun _ => 1) 1 3) 3 () [] 0 1 1 none pStateEmpty ∧
    Gambler.findMoveNegaMaxAlphaBeta unitGame (fun _ => ()) (fun _ => 2) 4 4 () [] 0 1 1 gStateEmpty =
      (0, gStateEmpty) := by
  refine ⟨by decide, ?_, by decide, ?_, ?_⟩
  · exact repetition_check_first.1 Unit Unit unitGame (fun _ => 2) 1 3 () [] 0 1 1 none
      pStateEmpty (by decide)
  · exact repetition_check_first.2.1 Unit Unit unitGame (fun _ => 1) 1 3 () [] 0 1 1 none
      pStateEmpty (by decide)
  · exact repetition_check_first.2.2.1 Unit Unit Unit unitGame (fun _ => ()) (fun _ => 2) 4 4 () []
      0 1 1 gStateEmpty (by decide)

/-- C2: the transposition-table rule of every engine that caches.  Prophet
and fortress (same probe): a cached entry is consulted only when its stored
depth is ≥ the requested depth (a shallower or missing entry leaves the
window untouched and the node is searched); an `"exact"` entry is returned
directly with the state untouched; a `"lower"` entry raises alpha to
`max alpha s` and returns `s` at once if that collapses the window
(`alpha ≥ beta`), otherwise the node is searched with the raised alpha; an
`"upper"` entry symmetrically lowers beta to `min beta s`.  Gambler (whose
entries carry no bound kind): a stored `(d0, s)` with `d0 ≥ depth` is
returned directly, anything else leaves the window untouched.  The
repetition hypothesis (count ≤ 1) only ensures the lookup is reached. -/
theorem transposition_lookup_rule :
    (∀ (P K : Type) [inst : DecidableEq K] (G : Game P MoveP K) (gh : K → Nat)
        (qf d d0 : Nat) (s : Rat) (pos : P) (moves : List MoveP)
        (alpha beta turn : Rat) (bm : Option MoveP) (st : Prophet.PState K),
      gh (G.key pos) + st.searchHist (G.key pos) ≤ 1 →
      st.transTable (G.key pos) = some (d0, s, "exact") → d ≤ d0 →
        Prophet.negamax G gh qf d pos moves alpha beta turn bm st = (s, st)) ∧
    (∀ (P K : Type) [inst : DecidableEq K] (G : Game P MoveP K) (gh : K → Nat)
        (qf d d0 : Nat) (s : Rat) (pos : P) (moves : List MoveP)
        (alpha beta turn : Rat) (bm : Option MoveP) (st : Prophet.PState K),
      gh (G.key pos) + st.searchHist (G.key pos) ≤ 1 →
      st.transTable (G.key pos) = some (d0, s, "lower") → d ≤ d0 →
      (beta ≤ max alpha s →
        Prophet.negamax G gh qf d pos moves alpha beta turn bm st = (s, st)) ∧
      (max alpha s < beta →
        Prophet.negamax G gh qf d pos moves alpha beta turn bm st =
          Prophet.pAfterTT G qf (Prophet.pPrev G gh qf d) d pos moves
            (max alpha s) beta turn bm st)) ∧
    (∀ (P K : Type) [inst : DecidableEq K] (G : Game P MoveP K) (gh : K → Nat)
        (qf d d0 : Nat) (s : Rat) (pos : P) (moves : List MoveP)
        (alpha beta turn : Rat) (bm : Option MoveP) (st : Prophet.PState K),
      gh (G.key pos) + st.searchHist (G.key pos) ≤ 1 →
      st.transTable (G.key pos) = some (d0, s, "upper") → d ≤ d0 →
      (min beta s ≤ alpha →
        Prophet.negamax G gh qf d pos moves alpha beta turn bm st = (s, st)) ∧
      (alpha < min beta s →
        Prophet.negamax G gh qf d pos moves alpha beta turn bm st =
          Prophet.pAfterTT G qf (Prophet.pPrev G gh qf d) d pos moves
            alpha (min beta s) turn bm st)) ∧
    (∀ (P K : Type) [inst : DecidableEq K] (G : Game P MoveP K) (gh : K → Nat)
        (qf d : Nat) (pos : P) (moves : List MoveP)
        (alpha beta turn : Rat) (bm : Option MoveP) (st : Prophet.PState K),
      gh (G.key pos) + st.searchHist (G.key pos) ≤ 1 →
      (st.transTable (G.key pos) = none ∨
        ∃ d0 s f, st.transTable (G.key pos) = some (d0, s, f) ∧ d0 < d) →
        Prophet.negamax G gh qf d pos moves alpha beta turn bm st =
          Prophet.pAfterTT G qf (Prophet.pPrev G gh qf d) d pos moves
            alpha beta turn bm st) ∧
    (∀ (P K BK : Type) [inst : DecidableEq BK] (G : Game P MoveP K) (bkey : P → BK)
        (d d0 : Nat) (s : Rat) (pos : P) (moves : List MoveP)
        (alpha beta turn : Rat) (tt : BK → Option (Nat × Rat × String)),
      tt (bkey pos) = some (d0, s, "exact") → d ≤ d0 →
        Fortress._negamax G bkey d pos moves alpha beta turn tt = (s, tt)) ∧
    (∀ (P K BK : Type) [inst : DecidableEq BK] (G : Game P MoveP K) (bkey : P → BK)
        (d d0 : Nat) (s : Rat) (pos : P) (moves : List MoveP)
        (alpha beta turn : Rat) (tt : BK → Option (Nat × Rat × String)),
      tt (bkey pos) = some (d0, s, "lower") → d ≤ d0 → max alpha s < beta →
        Fortress._negamax G bkey d pos moves alpha beta turn tt =
          Fortress.fAfterTT G bkey (Fortress.fPrev G bkey d) d pos moves
            (max alpha s) beta turn tt) ∧
    (∀ (P K BK : Type) [inst : DecidableEq K] [inst2 : DecidableEq BK]
        (G : Game P MoveP K) (bkey : P → BK) (gh : K → Nat) (DC d d0 : Nat)
        (s : Rat) (pos : P) (vm : List MoveP) (alpha beta turn : Rat)
        (st : Gambler.GState K BK),
      gh (G.key pos) + st.searchHist (G.key pos) ≤ 1 →
      st.transTable (bkey pos) = some (d0, s) → d ≤ d0 →
        Gambler.findMoveNegaMaxAlphaBeta G bkey gh DC d pos vm alpha beta turn st =
          (s, st)) ∧
    (∀ (P K BK : Type) [inst : DecidableEq K] [inst2 : DecidableEq BK]
        (G : Game P MoveP K) (bkey : P → BK) (gh : K → Nat) (DC d : Nat)
        (pos : P) (vm : List MoveP) (alpha beta turn : Rat)
        (st : Gambler.GState K BK),
      gh (G.key pos) + st.searchHist (G.key pos) ≤ 1 →
      (st.transTable (bkey pos) = none ∨
        ∃ d0 s, st.transTable (bkey pos) = some (d0, s) ∧ d0 < d) →
        Gambler.findMoveNegaMaxAlphaBeta G bkey gh DC d pos vm alpha beta turn st =
          Gambler.gAfterTT G bkey (Gambler.gPrev G bkey gh DC d) DC d pos vm
            alpha beta turn st) := by
  refine ⟨?_, ?_, ?_, ?_, ?_, ?_, ?_, ?_⟩
  · intro P K _ G gh qf d d0 s pos moves alpha beta turn bm st hrep he hd
    rw [prophet_negamax_eq, if_neg (by omega)]
    simp only [Prophet.pAfterRep, he, Prophet.ttProbe, if_pos hd]
    simp
  · intro P K _ G gh qf d d0 s pos moves alpha beta turn bm st hrep he hd
    constructor
    · intro hcut
      rw [prophet_negamax_eq, if_neg (by omega)]
      simp only [Prophet.pAfterRep, he, Prophet.ttProbe, if_pos hd]
      simp [hcut]
    · intro hgo
      rw [prophet_negamax_eq, if_neg (by omega)]
      simp only [Prophet.pAfterRep, he, Prophet.ttProbe, if_pos hd]
      simp [not_le.2 hgo]
  · intro P K _ G gh qf d d0 s pos moves alpha beta turn bm st hrep he hd
    constructor
    · intro hcut
      rw [prophet_negamax_eq, if_neg (by omega)]
      simp only [Prophet.pAfterRep, he, Prophet.ttProbe, if_pos hd]
      simp [hcut]
    · intro hgo
      rw [prophet_negamax_eq, if_neg (by omega)]
      simp only [Prophet.pAfterRep, he, Prophet.ttProbe, if_pos hd]
      simp [not_le.2 hgo]
  · intro P K _ G gh qf d pos moves alpha beta turn bm st hrep hmiss
    rw [prophet_negamax_eq, if_neg (by omega)]
    rcases hmiss with hnone | ⟨d0, s, f, he, hlt⟩
    · simp only [Prophet.pAfterRep, hnone, Prophet.ttProbe]
    · simp only [Prophet.pAfterRep, he, Prophet.ttProbe, if_neg (by omega : ¬ d ≤ d0)]
  · intro P K BK _ G bkey d d0 s pos moves alpha beta turn tt he hd
    cases d <;>
      simp only [Fortress._negamax, he, Prophet.ttProbe, if_pos hd] <;> simp
  · intro P K BK _ G bkey d d0 s pos moves alpha beta turn tt he hd hgo
    cases d <;>
      simp only [Fortress._negamax, he, Prophet.ttProbe, if_pos hd] <;>
      simp [not_le.2 hgo, Fortress.fPrev]
  · intro P K BK _ _ G bkey gh DC d d0 s pos vm alpha beta turn st hrep he hd
    rw [gambler_negamax_eq, if_neg (by omega)]
    simp only [Gambler.gAfterRep, he, if_pos hd]
  · intro P K BK _ _ G bkey gh DC d pos vm alpha beta turn st hrep hmiss
    rw [gambler_negamax_eq, if_neg (by omega)]
    rcases hmiss with hnone | ⟨d0, s, he, hlt⟩
    · simp only [Gambler.gAfterRep, hnone]
    · simp only [Gambler.gAfterRep, he, if_neg (by omega : ¬ d ≤ d0)]

/-- Witness for C2 at a concrete input: with an `"exact"` entry of depth 5
and score 7 stored for the current key and a repetition count of 0, a
depth-3 prophet negamax call returns the cached score with the state
untouched. -/
theorem transposition_lookup_rule_witness :
    (fun _ : Unit => 0) (unitGame.key ()) + pStateTT.searchHist (unitGame.key ()) ≤ 1 ∧
    pStateTT.transTable (unitGame.key ()) = some (5, 7, "exact") ∧
    3 ≤ 5 ∧
    Prophet.negamax unitGame (fun _ => 0) 1 3 () [] 0 1 1 none pStateTT = (7, pStateTT) := by
  refine ⟨by decide, rfl, by decide, ?_⟩
  exact transposition_lookup_rule.1 Unit Unit unitGame (fun _ => 0) 1 3 5 7 () [] 0 1 1 none
    pStateTT (by decide) rfl (by decide)

theorem qloopF_congr {P K : Type} (G G' : Game P MoveP K)
    (hap : G.apply = G'.apply)
    (recQ recQ' : P → Rat → Rat → Rat → Rat)
    (hrec : ∀ p a b t, recQ p a b t = recQ' p a b t) :
    ∀ (l : List MoveP) (pos : P) (alpha beta turn : Rat),
      Prophet.qloopF G recQ pos l alpha beta turn =
        Prophet.qloopF G' recQ' pos l alpha beta turn := by
  intro l
  induction l with
  | nil => intro pos alpha beta turn; rfl
  | cons m ms ih =>
    intro pos alpha beta turn
    simp only [Prophet.qloopF]
    rw [hap, hrec]
    split
    · rfl
    · exact ih _ _ _ _

/-- C4: the behaviour of the prophet's quiescence search, for any fuel
sufficient to take a step.  (i) If the turn-multiplied stand-pat
evaluation already reaches `beta`, the call returns `beta` — for every
game with that evaluation, i.e. without consulting the move list at all.
(ii) Otherwise the call runs the capture loop over exactly the capturing
moves in stable MVV-LVA-descending order, starting from `alpha` raised to
the stand-pat value if that is higher.  (iii) The loop recurses each
capture with the negated, swapped window, returns `beta` as soon as a
child score reaches `beta`, raises `alpha` to any higher child score, and
returns the final `alpha` when no captures remain.  (iv) The result
depends on the game only through the evaluation, the move application and
the MVV-LVA-sorted capture lists — non-capturing moves are never
considered. -/
theorem quiescence_standpat_captures :
    (∀ (P K : Type) (G : Game P MoveP K) (n : Nat) (pos : P) (alpha beta turn : Rat),
      beta ≤ turn * G.eval pos →
        Prophet.quiescence G (n + 1) pos alpha beta turn = beta) ∧
    (∀ (P K : Type) (G : Game P MoveP K) (n : Nat) (pos : P) (alpha beta turn : Rat),
      turn * G.eval pos < beta →
        Prophet.quiescence G (n + 1) pos alpha beta turn =
          Prophet.qloopF G (Prophet.quiescence G n) pos (Prophet.sortedCaptures G pos)
            (max alpha (turn * G.eval pos)) beta turn) ∧
    (∀ (P K : Type) (G : Game P MoveP K) (recQ : P → Rat → Rat → Rat → Rat)
        (pos : P) (alpha beta turn : Rat),
      Prophet.qloopF G recQ pos [] alpha beta turn = alpha) ∧
    (∀ (P K : Type) (G : Game P MoveP K) (recQ : P → Rat → Rat → Rat → Rat)
        (pos : P) (m : MoveP) (ms : List MoveP) (alpha beta turn : Rat),
      (beta ≤ -(recQ (G.apply pos m) (-beta) (-alpha) (-turn)) →
        Prophet.qloopF G recQ pos (m :: ms) alpha beta turn = beta) ∧
      (-(recQ (G.apply pos m) (-beta) (-alpha) (-turn)) < beta →
        Prophet.qloopF G recQ pos (m :: ms) alpha beta turn =
          Prophet.qloopF G recQ pos ms
            (max alpha (-(recQ (G.apply pos m) (-beta) (-alpha) (-turn)))) beta turn)) ∧
    (∀ (P K : Type) (G G' : Game P MoveP K), G.eval = G'.eval → G.apply = G'.apply →
      (∀ p, Prophet.sortedCaptures G p = Prophet.sortedCaptures G' p) →
      ∀ (n : Nat) (pos : P) (alpha beta turn : Rat),
        Prophet.quiescence G n pos alpha beta turn =
          Prophet.quiescence G' n pos alpha beta turn) := by
  refine ⟨?_, ?_, ?_, ?_, ?_⟩
  · intro P K G n pos alpha beta turn h
    simp only [Prophet.quiescence]
    rw [if_pos h]
  · intro P K G n pos alpha beta turn h
    simp only [Prophet.quiescence]
    rw [if_neg (not_le.2 h), ifLtMax]
  · intro P K G recQ pos alpha beta turn
    rfl
  · intro P K G recQ pos m ms alpha beta turn
    constructor
    · intro h
      simp only [Prophet.qloopF]
      rw [if_pos h]
    · intro h
      simp only [Prophet.qloopF]
      rw [if_neg (not_le.2 h), ifLtMax]
  · intro P K G G' hev hap hcap n
    induction n with
    | zero => intro pos alpha beta turn; rfl
    | succ n ihn =>
      intro pos alpha beta turn
      simp only [Prophet.quiescence]
      rw [hev, hcap]
      split
      · rfl
      · exact qloopF_congr G G' hap _ _ (fun p a b t => ihn p a b t) _ _ _ _ _

/-- Witness for C4 at a concrete input: on a one-position game with
evaluation 5 and window `(0, 1)`, the stand-pat value `1 * 5` reaches
`beta = 1`, so quiescence returns `beta`. -/
theorem quiescence_standpat_captures_witness :
    (1 : Rat) ≤ 1 * unitGameFive.eval () ∧
    Prophet.quiescence unitGameFive 1 () 0 1 1 = 1 := by
  constructor
  · norm_num [unitGameFive]
  · exact quiescence_standpat_captures.1 Unit Unit unitGameFive 0 () 0 1 1
      (by norm_num [unitGameFive])

/-- C7: behaviour of the three root searches on an empty legal-move list.
The gambler's `findBestMove` guards explicitly and signals the
distinguished no-move value (`returnQueue.put(None)`); the tactician's
`move_scores[0][0]` and the fortress's `adjusted[0][0]` index into a list
that is empty in that case — in the source an uncaught `IndexError`,
embedded as the absence of any chosen move. -/
theorem no_legal_moves_root :
    (∀ (P K : Type) [inst : DecidableEq K] (G : Game P MoveP K) (gh : K → Nat) (pos : P),
      (Tactician.findBestMove G gh pos []).1 = none) ∧
    (∀ (mv : GS → List MoveP) (ap : GS → MoveP → GS) (gs : GS),
      (Fortress.findBestMove mv ap gs []).1 = none) ∧
    (∀ (P K BK : Type) [inst : DecidableEq K] [inst2 : DecidableEq BK]
        (G : Game P MoveP K) (bkey : P → BK) (gh : K → Nat) (pos : P)
        (sh : List MoveP) (st : Gambler.GState K BK),
      (Gambler.findBestMove G bkey gh pos [] sh st).1 = Gambler.Outcome.noMove) := by
  refine ⟨?_, ?_, ?_⟩
  · intro P K _ G gh pos
    rfl
  · intro mv ap gs
    rfl
  · intro P K BK _ _ G bkey gh pos sh st
    rfl

theorem buildTopGo_length {M : Type} [DecidableEq M] (best : M) :
    ∀ (l acc : List M), acc.length ≤ 2 →
      acc.length ≤ (Gambler.buildTopGo best acc l).length ∧
      (Gambler.buildTopGo best acc l).length ≤ 3 := by
  intro l
  induction l with
  | nil =>
    intro acc hacc
    exact ⟨le_refl _, by simpa [Gambler.buildTopGo] using by omega⟩
  | cons m ms ih =>
    intro acc hacc
    simp only [Gambler.buildTopGo]
    have hlen : acc.length ≤ (if m ≠ best ∧ m ∉ acc then acc ++ [m] else acc).length ∧
        (if m ≠ best ∧ m ∉ acc then acc ++ [m] else acc).length ≤ acc.length + 1 := by
      by_cases hc : m ≠ best ∧ m ∉ acc <;> simp [hc]
    by_cases h3 : 3 ≤ (if m ≠ best ∧ m ∉ acc then acc ++ [m] else acc).length
    · rw [if_pos h3]
      exact ⟨hlen.1, by omega⟩
    · rw [if_neg h3]
      have := ih (if m ≠ best ∧ m ∉ acc then acc ++ [m] else acc) (by omega)
      exact ⟨le_trans hlen.1 this.1, this.2⟩

theorem buildTopGo_head {M : Type} [DecidableEq M] (best : M) :
    ∀ (l acc : List M), acc ≠ [] →
      (Gambler.buildTopGo best acc l).head? = acc.head? := by
  intro l
  induction l with
  | nil =>
    intro acc _
    rfl
  | cons m ms ih =>
    intro acc hacc
    simp only [Gambler.buildTopGo]
    have hne : (if m ≠ best ∧ m ∉ acc then acc ++ [m] else acc) ≠ [] := by
      by_cases hc : m ≠ best ∧ m ∉ acc <;> simp [hc, hacc]
    have hhead : (if m ≠ best ∧ m ∉ acc then acc ++ [m] else acc).head? = acc.head? := by
      by_cases hc : m ≠ best ∧ m ∉ acc
      · rw [if_pos hc]
        cases acc with
        | nil => exact absurd rfl hacc
        | cons a as => rfl
      · rw [if_neg hc]
    by_cases h3 : 3 ≤ (if m ≠ best ∧ m ∉ acc then acc ++ [m] else acc).length
    · rw [if_pos h3]
      exact hhead
    · rw [if_neg h3, ih _ hne, hhead]

/-- C8 (amended): the gambler's candidate list always holds between 1 and
3 moves and starts with the deterministic best move found by the full
search; the sampling weights are `[0.65, 0.25, 0.10]` for three
candidates, `[0.75, 0.25]` for two and `[1.0]` for one — the two-candidate
weights are a fixed table, not a proportional renormalisation of the
three-candidate weights; for each candidate count the weights sum to 1,
one weight per candidate, and the first (the deterministic best move's)
weight is the largest. -/
theorem gambler_candidates_weights :
    (∀ (M : Type) [inst : DecidableEq M] (best : M) (vm : List M),
      1 ≤ (Gambler.topMoves best vm).length ∧
      (Gambler.topMoves best vm).length ≤ 3 ∧
      (Gambler.topMoves best vm).head? = some best) ∧
    Gambler.weightsFor 1 = [1] ∧
    Gambler.weightsFor 2 = [3/4, 1/4] ∧
    Gambler.weightsFor 3 = [13/20, 1/4, 1/10] ∧
    (∀ n, 1 ≤ n → n ≤ 3 →
      (Gambler.weightsFor n).sum = 1 ∧
      (Gambler.weightsFor n).length = n ∧
      ∀ w ∈ Gambler.weightsFor n, w ≤ (Gambler.weightsFor n).head?.getD 0) := by
  refine ⟨?_, rfl, rfl, rfl, ?_⟩
  · intro M _ best vm
    have hl := buildTopGo_length best vm [best] (by simp)
    have hh := buildTopGo_head best vm [best] (by simp)
    exact ⟨by simpa [Gambler.topMoves] using hl.1,
      by simpa [Gambler.topMoves] using hl.2,
      by simpa [Gambler.topMoves] using hh⟩
  · intro n h1 h3
    interval_cases n <;>
      refine ⟨by norm_num [Gambler.weightsFor], rfl, ?_⟩ <;>
      · intro w hw
        simp only [Gambler.weightsFor] at hw ⊢
        norm_num at hw ⊢
        rcases hw with h | h | h <;> simp_all <;> norm_num

/-- Witness for C8 at concrete inputs: a two-element move list yields the
candidate list `[0, 1]` headed by the best move, and the two-candidate
weights sum to 1 with the head weight largest. -/
theorem gambler_candidates_weights_witness :
    1 ≤ (Gambler.topMoves (0 : Nat) [0, 1]).length ∧
    (Gambler.topMoves (0 : Nat) [0, 1]).head? = some 0 ∧
    (Gambler.weightsFor 2).sum = 1 := by
  refine ⟨(gambler_candidates_weights.1 Nat 0 [0, 1]).1,
    (gambler_candidates_weights.1 Nat 0 [0, 1]).2.2,
    (gambler_candidates_weights.2.2.2.2 2 (by norm_num) (by norm_num)).1⟩

/-- C8 counterexample: the claim's "collapse proportionally" rule would
give two candidates the weights `[13/18, 5/18] ≈ [0.722, 0.278]`, but the
source's two-candidate table is `[0.75, 0.25]` — a concrete two-candidate
call therefore uses weights different from the proportional collapse of
`0.65/0.25/0.10`. -/
theorem gambler_weights_not_proportional :
    (Gambler.topMoves (0 : Nat) [0, 1]).length = 2 ∧
    Gambler.weightsFor 2 = [3/4, 1/4] ∧
    Gambler.proportionalWeights 2 = [13/18, 5/18] ∧
    Gambler.weightsFor 2 ≠ Gambler.proportionalWeights 2 := by
  have hp : Gambler.proportionalWeights 2 = [13/18, 5/18] := by
    simp only [Gambler.proportionalWeights, List.take, List.sum_cons, List.sum_nil, List.map]
    norm_num
  refine ⟨by decide, rfl, hp, ?_⟩
  rw [hp, show Gambler.weightsFor 2 = [3/4, 1/4] from rfl]
  simp only [ne_eq, List.cons.injEq]
  norm_num

/-- C10 (amended): in every call of the fortress, tactician and gambler
`findBestMove`, the caller's legal-move list object ends up holding a
permutation of its pre-call contents — the shuffle outcome itself (for the
gambler, on the successful path; its empty-list and fallback paths return
before the shuffle and leave the list untouched, still trivially a
permutation).  The shuffle may produce any permutation, including the
identity, so the original order is not necessarily destroyed; and the
choice among equal-scoring moves depends on the resulting order: on a
concrete position with two equal-scoring quiet moves, the two opposite
shuffle outcomes make the tactician choose different moves. -/
theorem root_shuffle_permutation :
    (∀ (P K : Type) [inst : DecidableEq K] (G : Game P MoveP K) (gh : K → Nat)
        (pos : P) (vm sh : List MoveP), sh.Perm vm →
      (Tactician.findBestMove G gh pos sh).2.1 = sh ∧
      ((Tactician.findBestMove G gh pos sh).2.1).Perm vm) ∧
    (∀ (mv : GS → List MoveP) (ap : GS → MoveP → GS) (gs : GS)
        (vm sh : List MoveP), sh.Perm vm →
      (Fortress.findBestMove mv ap gs sh).2 = sh ∧
      ((Fortress.findBestMove mv ap gs sh).2).Perm vm) ∧
    (∀ (P K BK : Type) [inst : DecidableEq K] [inst2 : DecidableEq BK]
        (G : Game P MoveP K) (bkey : P → BK) (gh : K → Nat) (pos : P)
        (vm sh : List MoveP) (st : Gambler.GState K BK), sh.Perm vm →
      ((Gambler.findBestMove G bkey gh pos vm sh st).2.1).Perm vm) ∧
    (Tactician.findBestMove twoMoveGame (fun _ => 0) 0 [moveA, moveB]).1 = some moveA ∧
    (Tactician.findBestMove twoMoveGame (fun _ => 0) 0 [moveB, moveA]).1 = some moveB ∧
    (Tactician.findBestMove twoMoveGame (fun _ => 0) 0 [moveA, moveB]).1 ≠
      (Tactician.findBestMove twoMoveGame (fun _ => 0) 0 [moveB, moveA]).1 := by
  have h1 : (Tactician.findBestMove twoMoveGame (fun _ => 0) 0 [moveA, moveB]).1 = some moveA := by
    norm_num [Tactician.findBestMove, Tactician.findMoveNegaMaxAlphaBeta,
      Tactician.tAfterRep, Tactician.tLoopF, Tactician.tDummy, Tactician.DEPTH,
      Tactician.CAPTURE_BONUS, twoMoveGame, moveA, moveB, stableSort, insertOrd, CHECKMATE]
  have h2 : (Tactician.findBestMove twoMoveGame (fun _ => 0) 0 [moveB, moveA]).1 = some moveB := by
    norm_num [Tactician.findBestMove, Tactician.findMoveNegaMaxAlphaBeta,
      Tactician.tAfterRep, Tactician.tLoopF, Tactician.tDummy, Tactician.DEPTH,
      Tactician.CAPTURE_BONUS, twoMoveGame, moveA, moveB, stableSort, insertOrd, CHECKMATE]
  refine ⟨?_, ?_, ?_, h1, h2, ?_⟩
  · intro P K _ G gh pos vm sh hperm
    exact ⟨rfl, hperm⟩
  · intro mv ap gs vm sh hperm
    rcases hroot : Fortress._root_search mv ap gs sh Fortress.DEPTH
        (if gs.whiteToMove then 1 else -1)
        (if gs.whiteToMove then ColorT.w else ColorT.b) with _ | r <;>
      constructor <;> simp [Fortress.findBestMove, hroot] <;> exact hperm
  · intro P K BK _ _ G bkey gh pos vm sh st hperm
    by_cases hvm : vm = []
    · subst hvm
      simp [Gambler.findBestMove]
    · rcases hnm : (Gambler.findMoveNegaMaxAlphaBeta G bkey
          (fun k => if k = G.key pos then gh k + 1 else gh k) Gambler.DEPTH Gambler.DEPTH
          pos vm (-CHECKMATE) CHECKMATE (if G.whiteToMove pos then 1 else -1)
          { st with transTable := fun _ => none, nextMove := none,
                    searchHist := fun _ => 0 }).2.nextMove with _ | b
      · simp [Gambler.findBestMove, hvm, hnm]
      · simpa [Gambler.findBestMove, hvm, hnm] using hperm
  · rw [h1, h2]
    intro h
    have := Option.some.inj h
    exact absurd this (by decide)

/-- C10 counterexample: `random.shuffle` can leave the list in its
original order (the identity permutation is a possible outcome), so
"its original order is not preserved" fails on a concrete call: with the
identity shuffle outcome on `[moveA, moveB]`, the caller's list after the
tactician's `findBestMove` is exactly `[moveA, moveB]`, its pre-call
order. -/
theorem shuffle_identity_preserves_order :
    ([moveA, moveB] : List MoveP).Perm [moveA, moveB] ∧
    (Tactician.findBestMove twoMoveGame (fun _ => 0) 0 [moveA, moveB]).2.1 =
      [moveA, moveB] :=
  ⟨List.Perm.refl _, rfl⟩

/-- Witness for the amended C10 at a concrete input: with the swapped
shuffle outcome `[moveB, moveA]` of the list `[moveA, moveB]`, the
caller's list after the tactician's call holds exactly the shuffle
outcome, a permutation of the pre-call contents. -/
theorem root_shuffle_permutation_witness :
    ([moveB, moveA] : List MoveP).Perm [moveA, moveB] ∧
    (Tactician.findBestMove twoMoveGame (fun _ => 0) 0 [moveB, moveA]).2.1 = [moveB, moveA] ∧
    ((Tactician.findBestMove twoMoveGame (fun _ => 0) 0 [moveB, moveA]).2.1).Perm
      [moveA, moveB] := by
  have hperm : ([moveB, moveA] : List MoveP).Perm [moveA, moveB] := List.Perm.swap _ _ _
  have h := root_shuffle_permutation.1 Nat Nat twoMoveGame (fun _ => 0) 0
    [moveA, moveB] [moveB, moveA] hperm
  exact ⟨hperm, h.1, h.2⟩
